import Mathlib

/-!
# A verification development for the gemproto Gemini protocol library

This file gives a shallow embedding in Lean 4 of the parts of the gemproto
Go library that the verified properties concern: the TOFU hosts file
(`hostsfile.go`), the SPKI fingerprint (`gemcert/gemcert.go`), the wire-level
line codec (`readHeaderLine`), the deferred-header response writer and the
accept-loop backoff (`server.go`), the client redirect loop (`client.go`),
and the request multiplexer (`ServeMux`).

Machine integers are modelled as `Nat`/`Int` with explicit reductions modulo
`2^32`/`2^64` where the Go code relies on fixed-width arithmetic.  Go's
`time.Time` values are modelled as `Int` instants (the code only compares
them with `After`/`Equal`, which the integer order models exactly).
I/O writers are modelled as explicit logs of the values appended.
-/

set_option autoImplicit false

namespace Gemproto

/-! ## 32/64-bit helper arithmetic (models Go's uint32/uint64 operations) -/

/-- Truncate to 32 bits, as Go's `uint32` arithmetic does implicitly. -/
def w32 (n : Nat) : Nat := n % 4294967296

/-- 32-bit rotate right, models Go's `bits.RotateLeft32(x, -n)`. -/
def rotr32 (x n : Nat) : Nat := w32 ((x >>> n) ||| (x <<< (32 - n)))

/-- Big-endian 8-byte encoding of a 64-bit length, models `binary.BigEndian.PutUint64`. -/
def be64 (n : Nat) : List Nat :=
  [(n >>> 56) % 256, (n >>> 48) % 256, (n >>> 40) % 256, (n >>> 32) % 256,
   (n >>> 24) % 256, (n >>> 16) % 256, (n >>> 8) % 256, n % 256]

/-! ## SHA-256 (models Go's `crypto/sha256`, used by `gemcert.Fingerprint`) -/

/-- The SHA-256 round constants (decimal). -/
def sha256K : List Nat :=
  [1116352408, 1899447441, 3049323471, 3921009573, 961987163, 1508970993,
   2453635748, 2870763221, 3624381080, 310598401, 607225278, 1426881987,
   1925078388, 2162078206, 2614888103, 3248222580, 3835390401, 4022224774,
   264347078, 604807628, 770255983, 1249150122, 1555081692, 1996064986,
   2554220882, 2821834349, 2952996808, 3210313671, 3336571891, 3584528711,
   113926993, 338241895, 666307205, 773529912, 1294757372, 1396182291,
   1695183700, 1986661051, 2177026350, 2456956037, 2730485921, 2820302411,
   3259730800, 3345764771, 3516065817, 3600352804, 4094571909, 275423344,
   430227734, 506948616, 659060556, 883997877, 958139571, 1322822218,
   1537002063, 1747873779, 1955562222, 2024104815, 2227730452, 2361852424,
   2428436474, 2756734187, 3204031479, 3329325298]

/-- SHA-256 padding: append `0x80`, zero bytes, and the 64-bit bit length. -/
def sha256Pad (msg : List Nat) : List Nat :=
  let l := msg.length
  let k := (119 - (l % 64)) % 64
  msg ++ [0x80] ++ List.replicate k 0 ++ be64 (8 * l)

/-- Combine 4 bytes into a big-endian 32-bit word, 16 words per block. -/
def beWords : List Nat → List Nat
  | b0 :: b1 :: b2 :: b3 :: rest =>
      (b0 * 16777216 + b1 * 65536 + b2 * 256 + b3) :: beWords rest
  | _ => []

/-- Take 64-byte blocks, with the block count as structural fuel. -/
def chunksAux : Nat → List Nat → List (List Nat)
  | 0, _ => []
  | n + 1, l => l.take 64 :: chunksAux n (l.drop 64)

/-- Split the padded message (whose length is a multiple of 64) into
64-byte blocks. -/
def chunks64 (l : List Nat) : List (List Nat) :=
  chunksAux (l.length / 64) l

/-- Extend the 16 message-schedule words to 64 (fuel counts remaining words). -/
def sha256Extend : Nat → Array Nat → Array Nat
  | 0, w => w
  | n + 1, w =>
      let i := w.size
      let x15 := w[i - 15]!
      let x2 := w[i - 2]!
      let s0 := (rotr32 x15 7) ^^^ (rotr32 x15 18) ^^^ (x15 >>> 3)
      let s1 := (rotr32 x2 17) ^^^ (rotr32 x2 19) ^^^ (x2 >>> 10)
      sha256Extend n (w.push (w32 (w[i - 16]! + s0 + w[i - 7]! + s1)))

/-- The eight SHA-256 working variables. -/
structure Sha256State where
  a : Nat
  b : Nat
  c : Nat
  d : Nat
  e : Nat
  f : Nat
  g : Nat
  hh : Nat
deriving Repr, DecidableEq

/-- One SHA-256 compression round; `kw` is the round constant plus schedule word. -/
def sha256Round (s : Sha256State) (kw : Nat) : Sha256State :=
  let s1 := (rotr32 s.e 6) ^^^ (rotr32 s.e 11) ^^^ (rotr32 s.e 25)
  let ch := (s.e &&& s.f) ^^^ ((s.e ^^^ 4294967295) &&& s.g)
  let t1 := w32 (s.hh + s1 + ch + kw)
  let s0 := (rotr32 s.a 2) ^^^ (rotr32 s.a 13) ^^^ (rotr32 s.a 22)
  let maj := (s.a &&& s.b) ^^^ (s.a &&& s.c) ^^^ (s.b &&& s.c)
  let t2 := w32 (s0 + maj)
  ⟨w32 (t1 + t2), s.a, s.b, s.c, w32 (s.d + t1), s.e, s.f, s.g⟩

/-- Compress one 64-byte block into the running hash state. -/
def sha256Block (s : Sha256State) (block : List Nat) : Sha256State :=
  let ws := (sha256Extend 48 (Array.mk (beWords block))).toList
  let kws := (sha256K.zip ws).map (fun p => w32 (p.1 + p.2))
  let t := kws.foldl sha256Round s
  ⟨w32 (s.a + t.a), w32 (s.b + t.b), w32 (s.c + t.c), w32 (s.d + t.d),
   w32 (s.e + t.e), w32 (s.f + t.f), w32 (s.g + t.g), w32 (s.hh + t.hh)⟩

/-- The SHA-256 initial hash value (decimal). -/
def sha256Init : Sha256State :=
  ⟨1779033703, 3144134277, 1013904242, 2773480762,
   1359893119, 2600822924, 528734635, 1541459225⟩

/-- Big-endian 4-byte encoding of a 32-bit word. -/
def be32 (n : Nat) : List Nat :=
  [(n >>> 24) % 256, (n >>> 16) % 256, (n >>> 8) % 256, n % 256]

/-- SHA-256 of a byte sequence, models `sha256.Sum256`. -/
def sha256 (msg : List Nat) : List Nat :=
  let s := (chunks64 (sha256Pad msg)).foldl sha256Block sha256Init
  be32 s.a ++ be32 s.b ++ be32 s.c ++ be32 s.d ++ be32 s.e ++ be32 s.f ++ be32 s.g ++ be32 s.hh

/-- Lowercase hexadecimal digit. -/
def hexDigit (n : Nat) : Char :=
  if n < 10 then Char.ofNat (48 + n) else Char.ofNat (87 + n)

/-- Lowercase hexadecimal encoding of bytes, models `hex.EncodeToString`. -/
def hexEncode (bs : List Nat) : String :=
  String.mk (bs.foldr (fun b acc => hexDigit (b / 16) :: hexDigit (b % 16) :: acc) [])

/-! ## Certificates and `gemcert.Fingerprint`

An `x509.Certificate` is modelled by the fields that the verified code reads:
the raw SubjectPublicKeyInfo (`Fingerprint`), the expiry (`TrustCertificate`),
and the SAN DNS names and Subject Common Name (`verifyHostname`). -/

/-- The fields of Go's `x509.Certificate` read by the code under verification. -/
structure Certificate where
  rawSubjectPublicKeyInfo : List Nat
  notAfter : Int
  dnsNames : List String
  subjectCommonName : String
deriving Repr, DecidableEq

/-- `gemcert.Fingerprint`: hexadecimal sha256 of the certificate's SPKI section. -/
def gemcert.Fingerprint (cert : Certificate) : String :=
  hexEncode (sha256 cert.rawSubjectPublicKeyInfo)

/-! ## `net.SplitHostPort` and the repo's `splitHostPort` (part_006) -/

/-- `strings.HasPrefix`, reducible in the kernel (list-based). -/
def strStartsWith (s pre : String) : Bool := pre.data.isPrefixOf s.data

/-- `strings.HasSuffix`, reducible in the kernel (list-based). -/
def strEndsWith (s suf : String) : Bool := suf.data.isSuffixOf s.data

/-- Join with `/` separators, models `strings.Join(xs, "/")`. -/
def joinSlash : List String → String
  | [] => ""
  | [x] => x
  | x :: xs => x ++ "/" ++ joinSlash xs

/-- Index of the last occurrence of `c` in `l`, models Go's `last(s, ':')`. -/
def lastIndexOf (l : List Char) (c : Char) : Option Nat :=
  (List.range l.length).foldl
    (fun acc i => if l.get? i = some c then some i else acc) none

/-- Index of the first occurrence of `c` in `l`, models `byteIndex`. -/
def firstIndexOf (l : List Char) (c : Char) : Option Nat :=
  l.findIdx? (fun x => x = c)

/-- Models Go's `net.SplitHostPort`: split on the last colon, with `[...]`
bracket handling; `none` models the error return. -/
def netSplitHostPort (hostport : String) : Option (String × String) :=
  let s := hostport.data
  match lastIndexOf s ':' with
  | none => none
  | some i =>
    let core : Option (List Char × Nat × Nat) :=
      if s.head? = some '[' then
        match firstIndexOf s ']' with
        | none => none
        | some e =>
          if e + 1 = s.length then none
          else if e + 1 = i then some ((s.drop 1).take (e - 1), 1, e + 1)
          else none
      else
        let host := s.take i
        if (firstIndexOf host ':').isSome then none
        else some (host, 0, 0)
    match core with
    | none => none
    | some (host, j, k) =>
      if (firstIndexOf (s.drop j) '[').isSome then none
      else if (firstIndexOf (s.drop k) ']').isSome then none
      else some (String.mk host, String.mk (s.drop (i + 1)))

/-- The repo's `splitHostPort`: returns `(addr, "")` when there is no colon
or `net.SplitHostPort` fails. -/
def splitHostPort (addr : String) : String × String :=
  if !(addr.data.contains ':') then (addr, "")
  else
    match netSplitHostPort addr with
    | some hp => hp
    | none => (addr, "")

/-! ## x509 hostname verification (models `(*x509.Certificate).VerifyHostname`)

The model is restricted to DNS-name candidates (no IP addresses) and
lowercase-ASCII matching with a leftmost-label `*` wildcard, which is the
behaviour of Go's `matchHostnames` on valid hostname patterns. -/

/-- ASCII lowercasing, models Go's `toLowerCaseASCII`. -/
def toLowerCaseASCII (s : String) : String :=
  String.mk (s.data.map (fun c =>
    if 'A' ≤ c ∧ c ≤ 'Z' then Char.ofNat (c.toNat + 32) else c))

/-- Split a hostname into dot-separated labels, models `strings.Split(s, ".")`. -/
def splitOnDot (s : String) : List String :=
  (s.data.foldr
    (fun c acc =>
      match acc with
      | cur :: rest => if c = '.' then [] :: (cur :: rest) else (c :: cur) :: rest
      | [] => [[c]])
    [[]]).map String.mk

/-- Models Go's `matchHostnames(pattern, host)`. -/
def matchHostnames (pattern host : String) : Bool :=
  let pattern := toLowerCaseASCII pattern
  let host := toLowerCaseASCII host
  if pattern.data.length = 0 ∨ host.data.length = 0 then false
  else
    let pp := splitOnDot pattern
    let hp := splitOnDot host
    if pp.length ≠ hp.length then false
    else
      (List.range pp.length).all (fun i =>
        (i = 0 ∧ pp.get? i = some "*") ∨ pp.get? i = hp.get? i)

/-- Models `VerifyHostname` over a given DNS-name list: the hostname verifies
iff some SAN DNS name matches it.  `true` models a `nil` error. -/
def certVerifyHostname (dnsNames : List String) (hostname : String) : Bool :=
  dnsNames.any (fun pat => matchHostnames pat hostname)

/-- The DNS-name list built by the fixup branch of the repo's `verifyHostname`
(hostsfile.go).  It mirrors the Go statements
`temp.DNSNames = make([]string, 0, len(temp.DNSNames)+1)`,
`temp.DNSNames = append(temp.DNSNames, temp.DNSNames...)`,
`temp.DNSNames = append(temp.DNSNames, temp.Subject.CommonName)`:
the first assignment replaces the slice before the second reads it, so the
second append copies the fresh empty slice, not the certificate's SAN list. -/
def fixupDNSNames (cert : Certificate) : List String :=
  let dns : List String := []
  let dns := dns ++ dns
  dns ++ [cert.subjectCommonName]

/-- The repo's `verifyHostname` (hostsfile.go): if the Common Name already
occurs among the SAN DNS names, verify the certificate as is; otherwise
verify the fixed-up certificate.  `true` models a `nil` error. -/
def verifyHostname (cert : Certificate) (hostname : String) : Bool :=
  if cert.dnsNames.contains cert.subjectCommonName then
    certVerifyHostname cert.dnsNames hostname
  else
    certVerifyHostname (fixupDNSNames cert) hostname

/-! ## The TOFU hosts file (hostsfile.go) -/

/-- A hostsfile entry (`Host` in hostsfile.go). -/
structure Host where
  Addr : String
  Algorithm : String
  Fingerprint : String
  NotAfter : Int
deriving Repr, DecidableEq

/-- The `HostsFile` state: the in-memory map (an association list with unique
keys models Go's `map[string]Host`) and the writer, modelled as the log of
entries appended (one formatted line per `Host`). -/
structure HostsFile where
  hosts : List (String × Host)
  log : List Host
deriving Repr, DecidableEq

/-- Go map lookup `hf.hosts[addr]`. -/
def HostsFile.lookupHost (hf : HostsFile) (addr : String) : Option Host :=
  hf.hosts.lookup addr

/-- Go map assignment `m[k] = v` on the association-list model. -/
def mapSet (m : List (String × Host)) (k : String) (v : Host) : List (String × Host) :=
  if (m.lookup k).isSome then
    m.map (fun p => if p.1 = k then (k, v) else p)
  else
    m ++ [(k, v)]

/-- `(*HostsFile).SetHost`: no-op when the stored entry equals `h` exactly;
otherwise install in memory and append one formatted line to the writer. -/
def HostsFile.SetHost (hf : HostsFile) (h : Host) : HostsFile :=
  match hf.hosts.lookup h.Addr with
  | some h2 =>
      if h = h2 then hf
      else { hosts := mapSet hf.hosts h.Addr h, log := hf.log ++ [h] }
  | none => { hosts := mapSet hf.hosts h.Addr h, log := hf.log ++ [h] }

/-- The errors `TrustCertificate` can return: `ErrCertificateNotTrusted`, or
the hostname-verification error from `verifyHostname`. -/
inductive TofuError where
  | certificateNotTrusted
  | hostnameNotVerified
deriving Repr, DecidableEq

/-- The `renew:` tail of `TrustCertificate`: verify the hostname against the
host part of `addr` and install the entry via `SetHost`. -/
def HostsFile.renew (hf : HostsFile) (cert : Certificate) (addr algo fp : String)
    (notAfter : Int) : Option TofuError × HostsFile :=
  let host := (splitHostPort addr).1
  if verifyHostname cert host then
    (none, hf.SetHost ⟨addr, algo, fp, notAfter⟩)
  else
    (some TofuError.hostnameNotVerified, hf)

/-- `(*HostsFile).TrustCertificate`: the TOFU verification algorithm.
`now` models `time.Now().UTC()`; the result pairs the returned error
(`none` models `nil`) with the updated store. -/
def HostsFile.TrustCertificate (hf : HostsFile) (now : Int) (cert : Certificate)
    (addr : String) : Option TofuError × HostsFile :=
  let algo := "sha256"
  let notAfter := cert.notAfter
  let fp := gemcert.Fingerprint cert
  match hf.lookupHost addr with
  | some h =>
      if algo ≠ h.Algorithm ∨ fp ≠ h.Fingerprint then
        if h.NotAfter < now then hf.renew cert addr algo fp notAfter
        else (some TofuError.certificateNotTrusted, hf)
      else if h.NotAfter = notAfter then (none, hf)
      else hf.renew cert addr algo fp notAfter
  | none => hf.renew cert addr algo fp notAfter

/-! ## The line codec: `readHeaderLine` (part_006)

The reader is modelled as the list of bytes the connection will deliver;
reading past its end models the `Read` error return. -/

/-- The outcomes of `readHeaderLine`: the line, `errHeaderLineTooLong`, an
I/O error from the underlying reader, or a runtime panic — the source reads
into a fixed `var buf [2048]byte`, and the slice expression `buf[i:i+1]`
panics with a bounds error once `i` reaches 2048. -/
inductive ReadHeaderResult where
  | ok (line : List Nat)
  | ioError
  | headerLineTooLong
  | panicked
deriving Repr, DecidableEq

/-- The size of the source's read buffer, `var buf [2048]byte`. -/
def readHeaderBufSize : Nat := 2048

/-- The loop of `readHeaderLine`: `acc` holds the bytes read so far (Go's
`buf[:i]`), `fuel` the remaining iterations (`maxlen - i`).  Each iteration
first evaluates `buf[i:i+1]`, which panics when `i ≥ 2048`; then reads one
byte (an error return models a short stream); after reading, the code checks
`i > 0 && buf[i-1] == '\r' && buf[i] == '\n'` and returns `buf[:i-1]`. -/
def readHeaderLineAux : List Nat → Nat → List Nat → ReadHeaderResult
  | _, 0, _ => ReadHeaderResult.headerLineTooLong
  | stream, fuel + 1, acc =>
      if acc.length ≥ readHeaderBufSize then ReadHeaderResult.panicked
      else
        match stream with
        | [] => ReadHeaderResult.ioError
        | b :: rest =>
          if acc.getLast? = some 13 ∧ b = 10 then ReadHeaderResult.ok acc.dropLast
          else readHeaderLineAux rest fuel (acc ++ [b])

/-- `readHeaderLine(r, maxlen)`: read one byte at a time until a CRLF pair is
observed, returning the bytes preceding the CR; fail with
`errHeaderLineTooLong` after `maxlen` bytes without a CRLF; panic when the
2048-byte buffer is exceeded (reachable only for `maxlen ≥ 2049`). -/
def readHeaderLine (stream : List Nat) (maxlen : Nat) : ReadHeaderResult :=
  readHeaderLineAux stream maxlen []

/-- The `maxBytes` bound the server passes to `readHeaderLine` in
`Server.respond` (server.go). -/
def serverRequestLineMax : Nat := 1026

/-- The `maxBytes` bound the client passes to `readHeaderLine` in
`Client.doReqRes` (client.go). -/
def clientResponseLineMax : Nat := 1029

instance {ε α : Type} [DecidableEq ε] [DecidableEq α] : DecidableEq (Except ε α) := fun a b =>
  match a, b with
  | Except.ok x, Except.ok y =>
      if h : x = y then isTrue (by rw [h])
      else isFalse (fun hh => by cases hh; exact h rfl)
  | Except.error x, Except.error y =>
      if h : x = y then isTrue (by rw [h])
      else isFalse (fun hh => by cases hh; exact h rfl)
  | Except.ok _, Except.error _ => isFalse (fun hh => by cases hh)
  | Except.error _, Except.ok _ => isFalse (fun hh => by cases hh)

/-- `true` iff a byte 13 immediately followed by a byte 10 occurs in `l`. -/
def hasCRLF : List Nat → Bool
  | a :: b :: rest => (a == 13 && b == 10) || hasCRLF (b :: rest)
  | _ => false

/-! ## The response writer (server.go) -/

/-- `StatusOK` (gemproto.go). -/
def StatusOK : Int := 20

/-- `StatusPermanentRedirect` (gemproto.go). -/
def StatusPermanentRedirect : Int := 31

/-- `StatusNotFound` (gemproto.go). -/
def StatusNotFound : Int := 51

/-- `StatusInput` (gemproto.go). -/
def StatusInput : Int := 10

/-- `gemtext.MIMEType`. -/
def gemtextMIMEType : String := "text/gemini;charset=utf-8"

/-- The line emitted by `reply(w, code, meta)` (server.go):
`fmt.Fprint(w, code, " ", meta, "\r\n")`. -/
def replyLine (code : Int) (meta : String) : String :=
  toString code ++ " " ++ meta ++ "\r\n"

/-- The `responseWriter` state (server.go). -/
structure RespWriter where
  statusCode : Int
  metadata : String
  wroteHeader : Bool
deriving Repr, DecidableEq

/-- `(*responseWriter).writeHeader`: on the first call, mark the header
written and emit the reply line unless `statusCode < 10`.  The second
component is the list of strings written to the connection. -/
def RespWriter.writeHeader (rw : RespWriter) : RespWriter × List String :=
  if rw.wroteHeader then (rw, [])
  else
    ({ rw with wroteHeader := true },
     if rw.statusCode ≥ 10 then [replyLine rw.statusCode rw.metadata] else [])

/-- `(*responseWriter).WriteHeader`: record the status and meta. -/
def RespWriter.WriteHeader (rw : RespWriter) (statusCode : Int) (metadata : String) : RespWriter :=
  { rw with statusCode := statusCode, metadata := metadata }

/-- `(*responseWriter).Write`: flush the deferred header, then write `p`. -/
def RespWriter.Write (rw : RespWriter) (p : String) : RespWriter × List String :=
  (rw.writeHeader.1, rw.writeHeader.2 ++ [p])

/-- The calls a handler can make on its `ResponseWriter`. -/
inductive RWOp where
  | writeHeader (statusCode : Int) (meta : String)
  | write (p : String)
deriving Repr, DecidableEq

/-- Run a handler's sequence of `ResponseWriter` calls, collecting the bytes
written to the connection. -/
def runHandlerOps : List RWOp → RespWriter → RespWriter × List String
  | [], rw => (rw, [])
  | RWOp.writeHeader code meta :: ops, rw => runHandlerOps ops (rw.WriteHeader code meta)
  | RWOp.write p :: ops, rw =>
      ((runHandlerOps ops (rw.Write p).1).1,
       (rw.Write p).2 ++ (runHandlerOps ops (rw.Write p).1).2)

/-- The initial `responseWriter` built by `Server.respond`:
status 20 and the gemtext MIME type. -/
def initRespWriter : RespWriter :=
  { statusCode := StatusOK, metadata := gemtextMIMEType, wroteHeader := false }

/-- `Server.respond`'s handler dispatch: run the handler's writer calls from
the initial writer state, then flush the deferred header
(`defer func() { _ = rw.writeHeader() }()`).  Returns everything written to
the connection. -/
def serverRunHandler (ops : List RWOp) : List String :=
  (runHandlerOps ops initRespWriter).2 ++
    ((runHandlerOps ops initRespWriter).1.writeHeader).2

/-- The body chunks a handler writes, in order. -/
def writesOf : List RWOp → List String
  | [] => []
  | RWOp.writeHeader _ _ :: ops => writesOf ops
  | RWOp.write p :: ops => p :: writesOf ops

/-- The `(statusCode, metadata)` pair current at the time of the handler's
first `Write` call, or after all calls when the handler never writes. -/
def firstWriteHeader : List RWOp → Int × String → Int × String
  | [], st => st
  | RWOp.writeHeader code meta :: ops, _ => firstWriteHeader ops (code, meta)
  | RWOp.write _ :: _, st => st

/-! ## The accept-loop backoff (server.go, `Server.Serve`) -/

/-- `maxBackoff`: 1 second, in nanoseconds (Go `time.Duration`). -/
def maxBackoff : Nat := 1000000000

/-- `defBackoff`: 5 milliseconds, in nanoseconds. -/
def defBackoff : Nat := 5000000

/-- The backoff update after sleeping: `backoff *= 2`, capped at `maxBackoff`. -/
def backoffNext (backoff : Nat) : Nat :=
  let b := backoff * 2
  if b > maxBackoff then maxBackoff else b

/-- The accept-loop events the backoff logic reacts to. -/
inductive AcceptEvent where
  | timeout
  | success
deriving Repr, DecidableEq

/-- The sleeps performed by the accept loop on a sequence of accept results:
a timeout error sleeps the current backoff and doubles it (capped); a
successful accept sleeps nothing and resets the backoff to `defBackoff`. -/
def serveLoopSleeps : List AcceptEvent → Nat → List Nat
  | [], _ => []
  | AcceptEvent.timeout :: es, backoff => backoff :: serveLoopSleeps es (backoffNext backoff)
  | AcceptEvent.success :: es, _ => serveLoopSleeps es defBackoff

/-! ## URLs (models Go's `net/url` for the subset the library exercises)

The model covers URLs without userinfo, fragments, `ForceQuery`, or
percent-escapes: scheme, opaque part, host, path and raw query.  This is the
subset the Gemini client and multiplexer traffic in. -/

/-- The fields of Go's `url.URL` the library reads and writes. -/
structure URL where
  scheme : String
  opaquePart : String
  host : String
  path : String
  rawQuery : String
deriving Repr, DecidableEq

/-- `strings.Cut(s, sep)` for a one-character separator: the text before and
after the first occurrence, and whether it was found. -/
def stringsCut (s : String) (sep : Char) : String × String × Bool :=
  let before := s.data.takeWhile (fun c => c ≠ sep)
  if before.length = s.data.length then (s, "", false)
  else (String.mk before, String.mk (s.data.drop (before.length + 1)), true)

/-- Models `net/url`'s `getScheme`: a scheme is an ASCII letter followed by
letters, digits, `+`, `-` or `.`, terminated by `:`.  Returns
`(scheme, rest)`; no scheme leaves the input whole; `none` models the
`missing protocol scheme` error for `:` at position 0. -/
def getScheme (rawURL : String) : Option (String × String) :=
  let isAlpha : Char → Bool := fun c => ('a' ≤ c ∧ c ≤ 'z') ∨ ('A' ≤ c ∧ c ≤ 'Z')
  let isRest : Char → Bool := fun c =>
    isAlpha c ∨ ('0' ≤ c ∧ c ≤ '9') ∨ c = '+' ∨ c = '-' ∨ c = '.'
  let l := rawURL.data
  match firstIndexOf l ':' with
  | none => some ("", rawURL)
  | some i =>
    if i = 0 then none
    else
      let head := l.take i
      if (head.head?.map isAlpha).getD false ∧ head.all isRest then
        some (String.mk head, String.mk (l.drop (i + 1)))
      else if (firstIndexOf (l.take i) '/').isSome then
        some ("", rawURL)
      else
        some ("", rawURL)

/-- `validOptionalPort`: empty, or `:` followed by zero or more digits. -/
def validOptionalPort (port : String) : Bool :=
  match port.data with
  | [] => true
  | ':' :: digits => digits.all (fun c => '0' ≤ c ∧ c ≤ '9')
  | _ => false

/-- Models `net/url`'s `parseHost` restricted to non-escaped hosts: validates
the optional port and returns the host verbatim; `none` models the error. -/
def parseHostModel (host : String) : Option String :=
  let l := host.data
  if l.head? = some '[' then
    match lastIndexOf l ']' with
    | none => none
    | some i =>
      if validOptionalPort (String.mk (l.drop (i + 1))) then some host else none
  else
    match lastIndexOf l ':' with
    | none => some host
    | some i =>
      if validOptionalPort (String.mk (l.drop i)) then some host else none

/-- Models `net/url`'s `parseAuthority` without userinfo handling: the host
is everything after the last `@`. -/
def parseAuthorityModel (authority : String) : Option String :=
  match lastIndexOf authority.data '@' with
  | none => parseHostModel authority
  | some i => parseHostModel (String.mk (authority.data.drop (i + 1)))

/-- Models `url.Parse` (with `viaRequest = false`) on the un-escaped subset:
split off the scheme, split the query at the first `?`, parse `//authority`,
and classify opaque URLs.  `none` models a parse error. -/
def urlParse (rawURL : String) : Option URL :=
  match getScheme rawURL with
  | none => none
  | some (scheme, rest) =>
    let scheme := toLowerCaseASCII scheme
    let (rest, rawQuery, _) := stringsCut rest '?'
    if ¬ strStartsWith rest "/" then
      if scheme ≠ "" then
        some { scheme := scheme, opaquePart := rest, host := "", path := "", rawQuery := rawQuery }
      else
        let (segment, _, _) := stringsCut rest '/'
        if (firstIndexOf segment.data ':').isSome then none
        else some { scheme := "", opaquePart := "", host := "", path := rest, rawQuery := rawQuery }
    else
      if (scheme ≠ "" ∨ ¬ strStartsWith rest "///") ∧ strStartsWith rest "//" then
        let afterSlashes := String.mk (rest.data.drop 2)
        let (authority, path) :=
          match firstIndexOf afterSlashes.data '/' with
          | some i => (String.mk (afterSlashes.data.take i), String.mk (afterSlashes.data.drop i))
          | none => (afterSlashes, "")
        match parseAuthorityModel authority with
        | none => none
        | some host =>
          some { scheme := scheme, opaquePart := "", host := host, path := path, rawQuery := rawQuery }
      else
        some { scheme := scheme, opaquePart := "", host := "", path := rest, rawQuery := rawQuery }

/-- Models `(*url.URL).String()` on the modelled subset. -/
def URL.toString (u : URL) : String :=
  let schemePart := if u.scheme ≠ "" then u.scheme ++ ":" else ""
  if u.opaquePart ≠ "" then
    schemePart ++ u.opaquePart ++ (if u.rawQuery ≠ "" then "?" ++ u.rawQuery else "")
  else
    let authority :=
      if u.scheme ≠ "" ∨ u.host ≠ "" then
        (if u.host ≠ "" ∨ u.path ≠ "" then "//" ++ u.host else "")
      else ""
    let pathPart :=
      if u.path ≠ "" ∧ ¬ strStartsWith u.path "/" ∧ u.host ≠ "" then "/" ++ u.path else u.path
    let base := schemePart ++ authority
    let dotSlash :=
      if base = "" ∧ (firstIndexOf ((stringsCut u.path '/').1).data ':').isSome then "./" else ""
    base ++ dotSlash ++ pathPart ++ (if u.rawQuery ≠ "" then "?" ++ u.rawQuery else "")

/-- Models `net/url`'s internal `splitHostPort` used by `Hostname` and
`Port`: split at the last colon when a valid port follows, then strip
square brackets from the host. -/
def urlSplitHostPort (hostPort : String) : String × String :=
  let l := hostPort.data
  let (host, port) :=
    match lastIndexOf l ':' with
    | some i =>
      if validOptionalPort (String.mk (l.drop i)) then
        (String.mk (l.take i), String.mk (l.drop (i + 1)))
      else (hostPort, "")
    | none => (hostPort, "")
  if strStartsWith host "[" ∧ strEndsWith host "]" then
    (String.mk ((host.data.drop 1).take (host.data.length - 2)), port)
  else (host, port)

/-- `(*url.URL).Hostname()`. -/
def URL.Hostname (u : URL) : String := (urlSplitHostPort u.host).1

/-- `(*url.URL).Port()`. -/
def URL.Port (u : URL) : String := (urlSplitHostPort u.host).2

/-! ## Path cleaning (models Go's `path.Clean` and the repo's `cleanPath`) -/

/-- Split a path on `/` into its segments, models `strings.Split(s, "/")`. -/
def splitOnSlash (s : String) : List String :=
  (s.data.foldr
    (fun c acc =>
      match acc with
      | cur :: rest => if c = '/' then [] :: (cur :: rest) else (c :: cur) :: rest
      | [] => [[c]])
    [[]]).map String.mk

/-- Models Go's `path.Clean`: collapse multiple slashes, eliminate `.`
elements, resolve `..` against preceding elements (dropping leading `..` on
rooted paths, keeping it on relative ones); an empty result is `"."`. -/
def pathClean (p : String) : String :=
  if p = "" then "."
  else
    let rooted := p.data.head? = some '/'
    let step : List String → String → List String := fun stack seg =>
      if seg = "" ∨ seg = "." then stack
      else if seg = ".." then
        match stack with
        | top :: rest => if top = ".." then seg :: stack else rest
        | [] => if rooted then [] else [".."]
      else seg :: stack
    let stack := ((splitOnSlash p).foldl step []).reverse
    let body := joinSlash stack
    if rooted then "/" ++ body
    else if body = "" then "." else body

/-- The repo's `cleanPath` (part_000): ensure a leading slash, apply
`path.Clean`, and restore a trailing slash removed by `Clean`.  (Both arms
of the Go restore step produce `np + "/"`; the fast path is just an
allocation-free special case of it.) -/
def cleanPath (p : String) : String :=
  if p = "" then "/"
  else
    let p := if p.data.head? = some '/' then p else "/" ++ p
    let np := pathClean p
    if p.data.getLast? = some '/' ∧ np ≠ "/" then np ++ "/" else np

/-! ## `absoluteURL` (part_006) -/

/-- A request as the client sees it: the parsed URL and the SNI host.
(`NewRequestWithContext` sets `Host` from the URL; the server fills further
fields that the verified logic does not read.) -/
structure GRequest where
  url : URL
  host : String
deriving Repr, DecidableEq

/-- Go's `path.Split(p)`: the directory part up to and including the final
slash. -/
def pathSplitDir (p : String) : String :=
  match lastIndexOf p.data '/' with
  | some i => String.mk (p.data.take (i + 1))
  | none => ""

/-- The repo's `absoluteURL` (part_006): make the target absolute against
the request URL when it parses without scheme and host, resolving relative
paths against the directory of the request path. -/
def absoluteURL (r : GRequest) (url : String) : String :=
  match urlParse url with
  | none => url
  | some u =>
    if u.scheme = "" ∧ u.host = "" then
      let u := { u with scheme := r.url.scheme, host := r.url.host }
      let oldpath := if r.url.path = "" then "/" else r.url.path
      let u :=
        if url = "" ∨ url.data.head? ≠ some '/' then
          let trailing := strEndsWith url "/"
          let olddir := pathSplitDir oldpath
          let newpath := pathClean (olddir ++ url)
          let newpath := if trailing ∧ ¬ strEndsWith newpath "/" then newpath ++ "/" else newpath
          { u with path := newpath }
        else u
      u.toString
    else url

/-! ## The client (client.go) -/

/-- The failures `Client.Do` can return in the modelled fragment. -/
inductive ClientError where
  | invalidResponse
  | redirectError (lastURL nextURL : String)
  | urlParseError
  | schemeNotGemini
deriving Repr, DecidableEq

/-- `NewRequestWithContext`: parse the URL, default the scheme to `gemini`,
and set `Host` from the URL host. -/
def NewRequestWithContext (rawURL : String) : Except ClientError GRequest :=
  match urlParse rawURL with
  | none => Except.error ClientError.urlParseError
  | some u =>
    let u := if u.scheme = "" then { u with scheme := "gemini" } else u
    Except.ok { url := u, host := u.host }

/-- The two body shapes a client `Response` can hold: the underlying
connection, or `nopReadCloser` (the empty closed reader).  Neither is Go's
`nil`. -/
inductive RBody where
  | conn
  | nop
deriving Repr, DecidableEq

/-- The client-facing `Response` (gemproto.go), at the granularity the
claims need. -/
structure GResponse where
  statusCode : Int
  meta : String
  body : RBody
deriving Repr, DecidableEq

/-- Models `strconv.Atoi` with the error discarded, as `Client.do` does:
the parsed value for a valid optionally-signed decimal, the int64-clamped
value on range overflow, and `0` on a syntax error. -/
def atoiModel (s : String) : Int :=
  let (neg, ds) :=
    match s.data with
    | '-' :: rest => (true, rest)
    | '+' :: rest => (false, rest)
    | l => (false, l)
  if ds = [] ∨ ¬ ds.all (fun c => '0' ≤ c ∧ c ≤ '9') then 0
  else
    let v : Int := ds.foldl (fun acc c => acc * 10 + ((c.toNat : Int) - 48)) 0
    let v := if neg then -v else v
    if v > 9223372036854775807 then 9223372036854775807
    else if v < -9223372036854775808 then -9223372036854775808
    else v

/-- `Client.doReqRes` with the connection modelled as a function from the
request line sent to the header line received: split the header on the
first space into status and meta; an empty status is `ErrInvalidResponse`. -/
def doReqRes (server : String → String) (rawURL : String) :
    Except ClientError (String × String) :=
  let line := server rawURL
  let status := (stringsCut line ' ').1
  let meta := (stringsCut line ' ').2.1
  if status.length = 0 then Except.error ClientError.invalidResponse
  else Except.ok (status, meta)

/-- The response construction at the tail of `Client.do`: `Atoi` the status
(error discarded), hand the connection to the body for `2x` statuses and the
empty closed reader otherwise. -/
def mkClientResponse (status meta : String) : GResponse :=
  { statusCode := atoiModel status
    meta := meta
    body := if status.data.head? = some '2' then RBody.conn else RBody.nop }

/-- `Client.do(r, d, redirects)`: send the request line, read the header;
on a `3x` status close the connection and either fail with `RedirectError`
when the budget is exhausted or recurse on the resolved target; otherwise
build the `Response`.  (Dialing, deadlines and the TLS/TOFU callback are
connection plumbing outside the modelled fragment; the host/port resolution
they consume is retained.) -/
def clientDo (server : String → String) : Nat → GRequest → Except ClientError GResponse
  | redirects, r =>
    let hp0 := splitHostPort r.host
    let hp := if hp0.1 = "" then (r.url.Hostname, r.url.Port) else hp0
    let _port := if hp.2 = "" then "1965" else hp.2
    let _host := hp.1
    match doReqRes server r.url.toString with
    | Except.error e => Except.error e
    | Except.ok sm =>
      if sm.1.data.head? = some '3' then
        match redirects with
        | 0 => Except.error (ClientError.redirectError r.url.toString sm.2)
        | n + 1 =>
          match NewRequestWithContext (absoluteURL r sm.2) with
          | Except.error e => Except.error e
          | Except.ok newreq => clientDo server n newreq
      else
        Except.ok (mkClientResponse sm.1 sm.2)

/-- `maxRedirects` (client.go, `Client.Do`). -/
def maxRedirects : Nat := 5

/-- `Client.Do`: validate the scheme and delegate to `do` with the redirect
budget.  (A nil `Request.URL` is not representable in the model.) -/
def ClientDo (server : String → String) (req : GRequest) : Except ClientError GResponse :=
  if req.url.scheme ≠ "gemini" then Except.error ClientError.schemeNotGemini
  else clientDo server maxRedirects req

/-- The request reached after `n` consecutive `3x` hops: at each hop the
server's header for the current request URL must be a `3x` and the resolved
target must parse.  This is the specification-side description of a redirect
chain, used to state the redirect-budget claim. -/
def chainReq (server : String → String) : Nat → GRequest → Option GRequest
  | 0, r => some r
  | n + 1, r =>
    if ((stringsCut (server r.url.toString) ' ').1).data.head? = some '3' then
      match NewRequestWithContext
          (absoluteURL r ((stringsCut (server r.url.toString) ' ').2.1)) with
      | Except.ok r2 => chainReq server n r2
      | Except.error _ => none
    else none

/-! ## The multiplexer (part_000, `ServeMux`)

Handlers are opaque function values in Go; the model represents them
symbolically: user-registered handlers carry an identifier, and the two
kinds of handler the mux itself synthesizes (`RedirectHandler` and
`HandlerFunc(NotFound)`) are distinguished constructors. -/

/-- A symbolic Gemini handler. -/
inductive GemHandler where
  | user (id : Nat)
  | redirect (url : String) (code : Int)
  | notFoundFn
deriving Repr, DecidableEq

/-- `RedirectHandler(url, code)` (part_008). -/
def RedirectHandler (url : String) (code : Int) : GemHandler :=
  GemHandler.redirect url code

/-- A `muxEntry` (part_000). -/
structure MuxEntry where
  pattern : String
  handler : GemHandler
deriving Repr, DecidableEq

/-- The `ServeMux` state.  `exact` models the `map[string]muxEntry` as an
association list with unique keys; `notFound` is the nil-able `Handler`
field (`none` models a nil interface, which `NewServeMux` never produces). -/
structure ServeMux where
  exact : List (String × MuxEntry)
  entries : List MuxEntry
  hosts : Bool
  notFound : Option GemHandler
deriving Repr, DecidableEq

/-- `NewServeMux()`: the not-found handler defaults to `HandlerFunc(NotFound)`. -/
def NewServeMux : ServeMux :=
  { exact := [], entries := [], hosts := false, notFound := some GemHandler.notFoundFn }

/-- `appendSorted` (part_000): insert `e` into `es`, which is sorted by
descending pattern length, at the first position whose pattern is strictly
shorter.  (The Go code finds that position by `sort.Search`; on a
descending-sorted list the binary search returns exactly this position.) -/
def appendSorted : List MuxEntry → MuxEntry → List MuxEntry
  | [], e => [e]
  | x :: xs, e =>
      if x.pattern.length < e.pattern.length then e :: x :: xs
      else x :: appendSorted xs e

/-- `(*ServeMux).Handle`: `none` models the registration panics (empty
pattern, duplicate pattern).  A nil handler is not representable in the
model.  The pattern is recorded in `exact`; patterns ending in `/` also go
into the sorted prefix list; a pattern not starting with `/` switches on
hosts mode. -/
def ServeMux.Handle (mux : ServeMux) (pattern : String) (handler : GemHandler) :
    Option ServeMux :=
  if pattern = "" then none
  else if (mux.exact.lookup pattern).isSome then none
  else
    let entry : MuxEntry := { pattern := pattern, handler := handler }
    some
      { exact := mux.exact ++ [(pattern, entry)]
        entries :=
          if pattern.data.getLast? = some '/' then appendSorted mux.entries entry
          else mux.entries
        hosts := mux.hosts || !(pattern.data.head? = some '/' : Bool)
        notFound := mux.notFound }

/-- `(*ServeMux).match`: exact map hit first, then the first (hence longest)
entry of the descending-sorted prefix list that prefixes the path.  `none`
models the `nil, ""` return. -/
def ServeMux.matchPath (mux : ServeMux) (path : String) : Option (GemHandler × String) :=
  match mux.exact.lookup path with
  | some e => some (e.handler, e.pattern)
  | none =>
    match mux.entries.find? (fun e => strStartsWith path e.pattern) with
    | some e => some (e.handler, e.pattern)
    | none => none

/-- `(*ServeMux).handler(host, path)`: host-qualified match first when hosts
mode is on, then the bare path, then the configured not-found handler, with
a final fallback that keeps the result non-nil. -/
def ServeMux.handlerLookup (mux : ServeMux) (host path : String) : GemHandler × String :=
  let r1 : Option (GemHandler × String) :=
    if mux.hosts then mux.matchPath (host ++ path) else none
  match r1 with
  | some hp => hp
  | none =>
    match mux.matchPath path with
    | some hp => hp
    | none =>
      match mux.notFound with
      | some nf => (nf, "")
      | none => (GemHandler.notFoundFn, "")

/-- `(*ServeMux).shouldRedirect(host, path)`. -/
def ServeMux.shouldRedirect (mux : ServeMux) (host path : String) : Bool :=
  if (mux.exact.lookup path).isSome then false
  else if (mux.exact.lookup (host ++ path)).isSome then false
  else if path.length = 0 then false
  else if (mux.exact.lookup (path ++ "/")).isSome then
    !(path.data.getLast? = some '/' : Bool)
  else if (mux.exact.lookup (host ++ path ++ "/")).isSome then
    !(path.data.getLast? = some '/' : Bool)
  else false

/-- `(*ServeMux).Handler(r)`: non-gemini schemes get the not-found handler
(returned directly from the field, hence nil-able); otherwise strip the port
from the host, clean the path, and either synthesize a canonicalization
redirect, a clean-path redirect, or delegate to `handler`. -/
def ServeMux.Handler (mux : ServeMux) (r : GRequest) : Option GemHandler × String :=
  if r.url.scheme ≠ "gemini" then (mux.notFound, "")
  else
    let host := (splitHostPort r.host).1
    let path := cleanPath r.url.path
    if mux.shouldRedirect host path then
      let u : URL :=
        { scheme := "", opaquePart := "", host := "", path := path ++ "/",
          rawQuery := r.url.rawQuery }
      (some (RedirectHandler u.toString StatusPermanentRedirect), u.path)
    else if path ≠ r.url.path then
      let pattern := (mux.handlerLookup host path).2
      let u : URL :=
        { scheme := "", opaquePart := "", host := "", path := path,
          rawQuery := r.url.rawQuery }
      (some (RedirectHandler u.toString StatusPermanentRedirect), pattern)
    else
      let hp := mux.handlerLookup host path
      (some hp.1, hp.2)

/-- Fold a sequence of `Handle` registrations over a mux; `none` when any
registration panics. -/
def buildMux : List (String × GemHandler) → ServeMux → Option ServeMux
  | [], mux => some mux
  | (p, h) :: rest, mux =>
    match mux.Handle p h with
    | some mux2 => buildMux rest mux2
    | none => none

/-! ### Specification-side description of the mux lookup (for the refinement
claim): written from the spec's words, to be compared with
`ServeMux.handlerLookup`. -/

/-- Keep the longer of an accumulated candidate and a new one (ties keep the
earlier). -/
def pickLonger (acc : Option String) (p : String) : Option String :=
  match acc with
  | none => some p
  | some q => if q.length < p.length then some p else acc

/-- The longest registered `/`-terminated pattern that prefixes `s`, taken
over the exact-registration map — the spec's "longest registered
'/'-terminated prefix". -/
def longestSlashPrefixSpec (mux : ServeMux) (s : String) : Option String :=
  ((mux.exact.map Prod.fst).filter
      (fun p => strEndsWith p "/" && strStartsWith s p)).foldl pickLonger none

/-- Spec-side single-string lookup: exact registration first, then the
handler of the longest registered `/`-terminated prefix. -/
def muxMatchSpec (mux : ServeMux) (s : String) : Option (GemHandler × String) :=
  ((mux.exact.lookup s).map (fun e => (e.handler, e.pattern))).orElse
    (fun _ => (longestSlashPrefixSpec mux s).bind (fun p =>
      (mux.exact.lookup p).map (fun e => (e.handler, e.pattern))))

/-- Spec-side lookup, following the claim's order: exact on `host + path`
then longest `/`-prefix of `host + path` (only in hosts mode), then exact on
`path`, then longest `/`-prefix of `path`, else the configured not-found
handler (never nil). -/
def muxLookupSpec (mux : ServeMux) (host path : String) : GemHandler × String :=
  (((if mux.hosts then muxMatchSpec mux (host ++ path) else none).orElse
      (fun _ => muxMatchSpec mux path))).getD
    (mux.notFound.getD GemHandler.notFoundFn, "")

/-! ## Theorems -/

/-! ### C8: the accept-loop backoff sequence -/

/-- C8: starting from the initial 5 ms backoff, ten consecutive accept
timeouts make the server sleep 5, 10, 20, 40, 80, 160, 320, 640, 1000 and
1000 ms (doubling, capped at 1 second), and any successful accept resets the
backoff to 5 ms. -/
theorem accept_backoff_sequence :
    serveLoopSleeps (List.replicate 10 AcceptEvent.timeout) defBackoff =
      [5000000, 10000000, 20000000, 40000000, 80000000, 160000000, 320000000,
       640000000, 1000000000, 1000000000] ∧
    ∀ (es : List AcceptEvent) (backoff : Nat),
      serveLoopSleeps (AcceptEvent.success :: es) backoff =
        serveLoopSleeps es defBackoff :=
  ⟨by decide, fun _ _ => rfl⟩

/-! ### C1: TOFU fingerprint mismatch with an unexpired stored entry -/

/-- C1: when a stored entry for `addr` exists whose algorithm or SPKI
fingerprint differs from the candidate certificate's and the current UTC
time is not after the stored `NotAfter`, `TrustCertificate` returns
`ErrCertificateNotTrusted` and leaves both the in-memory host map and the
writer log unchanged. -/
theorem trustCertificate_mismatch_unexpired (hf : HostsFile) (now : Int)
    (cert : Certificate) (addr : String) (h : Host)
    (hget : hf.lookupHost addr = some h)
    (hmis : "sha256" ≠ h.Algorithm ∨ gemcert.Fingerprint cert ≠ h.Fingerprint)
    (hexp : ¬ h.NotAfter < now) :
    hf.TrustCertificate now cert addr = (some TofuError.certificateNotTrusted, hf) := by
  simp only [HostsFile.TrustCertificate, hget]
  rw [if_pos hmis, if_neg hexp]

/-- Witness for C1 at a concrete store and certificate. -/
def certC1 : Certificate :=
  { rawSubjectPublicKeyInfo := [1, 2, 3], notAfter := 99,
    dnsNames := ["localhost"], subjectCommonName := "localhost" }

/-- A stored entry whose algorithm differs from `sha256`. -/
def hostC1 : Host :=
  { Addr := "localhost:1965", Algorithm := "md5", Fingerprint := "aa", NotAfter := 20 }

/-- The store holding `hostC1`. -/
def hfC1 : HostsFile := { hosts := [("localhost:1965", hostC1)], log := [] }

/-- C1 witness: the theorem applied at a concrete unexpired mismatching
entry. -/
theorem trustCertificate_mismatch_unexpired_witness :
    hfC1.lookupHost "localhost:1965" = some hostC1 ∧
    ("sha256" ≠ hostC1.Algorithm ∨ gemcert.Fingerprint certC1 ≠ hostC1.Fingerprint) ∧
    ¬ hostC1.NotAfter < (10 : Int) ∧
    hfC1.TrustCertificate 10 certC1 "localhost:1965" =
      (some TofuError.certificateNotTrusted, hfC1) :=
  ⟨rfl, Or.inl (by decide), by decide,
   trustCertificate_mismatch_unexpired hfC1 10 certC1 "localhost:1965" hostC1 rfl
     (Or.inl (by decide)) (by decide)⟩

/-! ### C10: matching fingerprint, different expiry -/

/-- The entry the `renew:` tail of `TrustCertificate` installs for a
candidate certificate. -/
def renewedHost (cert : Certificate) (addr : String) : Host :=
  { Addr := addr, Algorithm := "sha256",
    Fingerprint := gemcert.Fingerprint cert, NotAfter := cert.notAfter }

/-- C10: when the stored entry for `addr` has the candidate's algorithm and
fingerprint but a different `NotAfter`, `TrustCertificate` never returns
`ErrCertificateNotTrusted` — at any current time, expired or not — and when
hostname verification succeeds it returns success after overwriting the
in-memory entry with the candidate's expiry and appending one line to the
writer via `SetHost`. -/
theorem trustCertificate_renews_on_expiry_change (hf : HostsFile) (now : Int)
    (cert : Certificate) (addr : String) (h : Host)
    (hget : hf.lookupHost addr = some h)
    (halgo : h.Algorithm = "sha256")
    (hfp : h.Fingerprint = gemcert.Fingerprint cert)
    (hne : h.NotAfter ≠ cert.notAfter) :
    (hf.TrustCertificate now cert addr).1 ≠ some TofuError.certificateNotTrusted ∧
    (verifyHostname cert (splitHostPort addr).1 = true →
      hf.TrustCertificate now cert addr =
        (none,
         { hosts := mapSet hf.hosts addr (renewedHost cert addr)
           log := hf.log ++ [renewedHost cert addr] })) := by
  have hcond : ¬ ("sha256" ≠ h.Algorithm ∨ gemcert.Fingerprint cert ≠ h.Fingerprint) := by
    push_neg
    exact ⟨halgo.symm, hfp.symm⟩
  have hne2 : ¬ h.NotAfter = cert.notAfter := hne
  simp only [HostsFile.TrustCertificate, hget]
  rw [if_neg hcond, if_neg hne2]
  constructor
  · simp only [HostsFile.renew]
    split
    · simp
    · simp
  · intro hv
    have hwrites : hf.SetHost (renewedHost cert addr) =
        { hosts := mapSet hf.hosts addr (renewedHost cert addr)
          log := hf.log ++ [renewedHost cert addr] } := by
      unfold HostsFile.SetHost renewedHost
      have hl : hf.hosts.lookup addr = some h := hget
      simp only [hl]
      have hneq : ¬ (Host.mk addr "sha256" (gemcert.Fingerprint cert) cert.notAfter = h) := by
        intro he
        exact hne (by rw [← he])
      rw [if_neg hneq]
    simp only [HostsFile.renew]
    rw [if_pos hv]
    show (none, hf.SetHost (renewedHost cert addr)) = _
    rw [hwrites]

/-- Witness certificate for C10. -/
def certC10 : Certificate :=
  { rawSubjectPublicKeyInfo := [4, 5, 6], notAfter := 99,
    dnsNames := ["localhost"], subjectCommonName := "localhost" }

/-- Stored entry for C10: same algorithm and fingerprint, older expiry. -/
def hostC10 : Host :=
  { Addr := "localhost:1965", Algorithm := "sha256",
    Fingerprint := gemcert.Fingerprint certC10, NotAfter := 50 }

/-- The store holding `hostC10`. -/
def hfC10 : HostsFile := { hosts := [("localhost:1965", hostC10)], log := [] }

/-- C10 witness: the theorem applied at a concrete store whose entry matches
the candidate's fingerprint but not its expiry, at a time before the stored
expiry (the entry is unexpired). -/
theorem trustCertificate_renews_on_expiry_change_witness :
    hfC10.lookupHost "localhost:1965" = some hostC10 ∧
    hostC10.Algorithm = "sha256" ∧
    hostC10.Fingerprint = gemcert.Fingerprint certC10 ∧
    hostC10.NotAfter ≠ certC10.notAfter ∧
    ((hfC10.TrustCertificate 10 certC10 "localhost:1965").1 ≠
        some TofuError.certificateNotTrusted ∧
      (verifyHostname certC10 (splitHostPort "localhost:1965").1 = true →
        hfC10.TrustCertificate 10 certC10 "localhost:1965" =
          (none,
           { hosts := mapSet hfC10.hosts "localhost:1965"
               (renewedHost certC10 "localhost:1965")
             log := hfC10.log ++ [renewedHost certC10 "localhost:1965"] }))) :=
  ⟨rfl, rfl, rfl, by decide,
   trustCertificate_renews_on_expiry_change hfC10 10 certC10 "localhost:1965" hostC10
     rfl rfl rfl (by decide)⟩

/-! ### C2: the hostname-verification DNS-name fixup -/

/-- The certificate exhibiting the C2 divergence: a SAN DNS name that is
not the Common Name. -/
def certC2 : Certificate :=
  { rawSubjectPublicKeyInfo := [], notAfter := 0,
    dnsNames := ["example.com"], subjectCommonName := "gemini.example.org" }

/-- C2: the fixup branch of `verifyHostname` was meant to verify against the
SAN list with the Common Name appended, but the Go code overwrites
`temp.DNSNames` with an empty slice before copying from it, so the list it
verifies against is `[CommonName]` alone.  At the concrete certificate with
SAN `example.com` and CN `gemini.example.org`, the list handed to
verification is `["gemini.example.org"]` rather than the claim's
`["example.com", "gemini.example.org"]`, and verification of hostname
`example.com` fails even though it is a SAN of the certificate. -/
theorem verifyHostname_drops_SAN_list :
    certC2.dnsNames.contains certC2.subjectCommonName = false ∧
    fixupDNSNames certC2 = ["gemini.example.org"] ∧
    certC2.dnsNames ++ [certC2.subjectCommonName] = ["example.com", "gemini.example.org"] ∧
    fixupDNSNames certC2 ≠ certC2.dnsNames ++ [certC2.subjectCommonName] ∧
    verifyHostname certC2 "example.com" = false ∧
    certVerifyHostname (certC2.dnsNames ++ [certC2.subjectCommonName]) "example.com" = true := by
  refine ⟨rfl, rfl, rfl, by decide, by decide, by decide⟩

/-! ### C5: deferred single header emission -/

/-- Once the header has been flushed, further writer calls emit exactly the
handler's body chunks and the header stays flushed. -/
theorem runHandlerOps_written (ops : List RWOp) : ∀ (rw : RespWriter),
    rw.wroteHeader = true →
    (runHandlerOps ops rw).2 = writesOf ops ∧
    (runHandlerOps ops rw).1.wroteHeader = true := by
  induction ops with
  | nil => intro rw hw; exact ⟨rfl, hw⟩
  | cons op ops ih =>
    intro rw hw
    cases op with
    | writeHeader c m =>
      simpa [runHandlerOps, writesOf] using
        ih (rw.WriteHeader c m) (by simpa [RespWriter.WriteHeader] using hw)
    | write p =>
      have h1 : rw.writeHeader = (rw, []) := by simp [RespWriter.writeHeader, hw]
      obtain ⟨h2, h3⟩ := ih rw hw
      simp [runHandlerOps, writesOf, RespWriter.Write, h1, h2, h3]

/-- Running a handler from an unflushed writer state and then flushing emits
the header current at the first `Write` (or at the flush), if `≥ 10`,
followed by exactly the handler's body chunks. -/
theorem runHandlerOps_unwritten (ops : List RWOp) : ∀ (code : Int) (meta : String),
    (runHandlerOps ops ⟨code, meta, false⟩).2 ++
      ((runHandlerOps ops ⟨code, meta, false⟩).1.writeHeader).2 =
    (if 10 ≤ (firstWriteHeader ops (code, meta)).1 then
       [replyLine (firstWriteHeader ops (code, meta)).1 (firstWriteHeader ops (code, meta)).2]
     else []) ++ writesOf ops := by
  induction ops with
  | nil =>
    intro code meta
    simp [runHandlerOps, writesOf, firstWriteHeader, RespWriter.writeHeader]
  | cons op ops ih =>
    intro code meta
    cases op with
    | writeHeader c m =>
      simpa [runHandlerOps, writesOf, firstWriteHeader, RespWriter.WriteHeader] using ih c m
    | write p =>
      have h1 : (RespWriter.mk code meta false).writeHeader =
          (RespWriter.mk code meta true, if 10 ≤ code then [replyLine code meta] else []) := by
        simp [RespWriter.writeHeader]
      obtain ⟨h2, h3⟩ := runHandlerOps_written ops (RespWriter.mk code meta true) rfl
      have h4 : ((runHandlerOps ops (RespWriter.mk code meta true)).1.writeHeader).2 = [] := by
        simp [RespWriter.writeHeader, h3]
      simp [runHandlerOps, writesOf, firstWriteHeader, RespWriter.Write, h1, h2, h4]

/-- C5: for any sequence of handler `WriteHeader`/`Write` calls followed by
the server's trailing flush, the bytes reaching the connection are exactly
one header line `"<code> <meta>\r\n"` — carrying the status and meta most
recently set at the time of the first `Write`, or at the trailing flush when
the handler never writes — followed by the handler's body chunks in order,
when that status is `≥ 10`; and exactly the handler's body chunks, with no
header line ever, when that status is `< 10`. -/
theorem responseWriter_single_deferred_header (ops : List RWOp) :
    serverRunHandler ops =
      (if 10 ≤ (firstWriteHeader ops (StatusOK, gemtextMIMEType)).1 then
        [replyLine (firstWriteHeader ops (StatusOK, gemtextMIMEType)).1
          (firstWriteHeader ops (StatusOK, gemtextMIMEType)).2]
       else []) ++ writesOf ops :=
  runHandlerOps_unwritten ops StatusOK gemtextMIMEType

/-! ### C4: the header-line codec -/

/-- Appending byte 10 to a list ending in byte 13 creates a CRLF pair. -/
theorem hasCRLF_of_last13 : ∀ (acc ys : List Nat), acc.getLast? = some 13 →
    hasCRLF (acc ++ 10 :: ys) = true := by
  intro acc
  induction acc with
  | nil => intro ys h; simp at h
  | cons a t ih =>
    intro ys h
    cases t with
    | nil =>
      simp only [List.getLast?_singleton, Option.some.injEq] at h
      subst h
      simp [hasCRLF]
    | cons b t2 =>
      have h2 : (b :: t2).getLast? = some 13 := by
        rwa [List.getLast?_cons_cons] at h
      have h3 := ih ys h2
      simp only [List.cons_append, hasCRLF, List.append_eq] at h3 ⊢
      rw [h3]
      simp

/-- Unfolding the loop once the buffer bound is hit: the slice expression
panics before anything is read. -/
theorem readHeaderLineAux_panic (stream : List Nat) (fuel : Nat) (acc : List Nat)
    (hbuf : acc.length ≥ readHeaderBufSize) :
    readHeaderLineAux stream (fuel + 1) acc = ReadHeaderResult.panicked := by
  cases stream with
  | nil => rw [readHeaderLineAux, if_pos hbuf]
  | cons b rest => rw [readHeaderLineAux, if_pos hbuf]

/-- Unfolding the loop at a read of one byte when the buffer bound is not
yet hit. -/
theorem readHeaderLineAux_cons (b : Nat) (rest : List Nat) (fuel : Nat) (acc : List Nat)
    (hbuf : ¬ acc.length ≥ readHeaderBufSize) :
    readHeaderLineAux (b :: rest) (fuel + 1) acc =
      if acc.getLast? = some 13 ∧ b = 10 then ReadHeaderResult.ok acc.dropLast
      else readHeaderLineAux rest fuel (acc ++ [b]) := by
  rw [readHeaderLineAux, if_neg hbuf]

/-- The success case of `readHeaderLine`'s loop, generalized over the bytes
already read; the fuel bound keeps every read inside the 2048-byte buffer. -/
theorem readHeaderLineAux_ok : ∀ (L acc rest : List Nat) (fuel : Nat),
    hasCRLF (acc ++ L ++ [13]) = false → L.length + 2 ≤ fuel →
    acc.length + fuel ≤ readHeaderBufSize →
    readHeaderLineAux (L ++ 13 :: 10 :: rest) fuel acc = ReadHeaderResult.ok (acc ++ L) := by
  intro L
  induction L with
  | nil =>
    intro acc rest fuel hno hfuel hbuf
    obtain ⟨f, rfl⟩ : ∃ f, fuel = f + 1 + 1 := ⟨fuel - 2, by omega⟩
    have hb1 : ¬ acc.length ≥ readHeaderBufSize := by
      simp only [readHeaderBufSize] at hbuf ⊢
      omega
    have hb2 : ¬ (acc ++ [13]).length ≥ readHeaderBufSize := by
      simp only [readHeaderBufSize, List.length_append, List.length_cons,
        List.length_nil] at hbuf ⊢
      omega
    have hc1 : ¬ (acc.getLast? = some 13 ∧ (13 : Nat) = 10) := by
      rintro ⟨-, h⟩; exact absurd h (by decide)
    have hc2 : ((acc ++ [13]).getLast? = some 13 ∧ (10 : Nat) = 10) := by
      exact ⟨List.getLast?_concat acc, rfl⟩
    rw [List.nil_append, List.append_nil, readHeaderLineAux_cons 13 _ _ _ hb1,
      if_neg hc1, readHeaderLineAux_cons 10 _ _ _ hb2, if_pos hc2,
      List.dropLast_concat]
  | cons x L ih =>
    intro acc rest fuel hno hfuel hbuf
    obtain ⟨f, rfl⟩ : ∃ f, fuel = f + 1 := ⟨fuel - 1, by omega⟩
    have hb1 : ¬ acc.length ≥ readHeaderBufSize := by
      simp only [readHeaderBufSize] at hbuf ⊢
      omega
    have hc : ¬ (acc.getLast? = some 13 ∧ x = 10) := by
      rintro ⟨hlast, rfl⟩
      have : hasCRLF (acc ++ 10 :: (L ++ [13])) = true := hasCRLF_of_last13 acc _ hlast
      rw [show acc ++ (10 :: L) ++ [13] = acc ++ 10 :: (L ++ [13]) by simp] at hno
      rw [this] at hno
      cases hno
    have harr : (acc ++ [x]) ++ L ++ [13] = acc ++ (x :: L) ++ [13] := by simp
    have hstep := ih (acc ++ [x]) rest f (by rw [harr]; exact hno)
      (by simp only [List.length_cons] at hfuel; omega)
      (by
        simp only [readHeaderBufSize, List.length_append, List.length_cons,
          List.length_nil] at hbuf ⊢
        omega)
    rw [List.cons_append, readHeaderLineAux_cons x _ _ _ hb1, if_neg hc, hstep]
    simp

/-- The too-long case of `readHeaderLine`'s loop, generalized over the bytes
already read; the fuel bound keeps every read inside the 2048-byte buffer. -/
theorem readHeaderLineAux_tooLong : ∀ (fuel : Nat) (stream acc : List Nat),
    fuel ≤ stream.length → hasCRLF (acc ++ stream.take fuel) = false →
    acc.length + fuel ≤ readHeaderBufSize →
    readHeaderLineAux stream fuel acc = ReadHeaderResult.headerLineTooLong := by
  intro fuel
  induction fuel with
  | zero => intro stream acc _ _ _; cases stream <;> rfl
  | succ f ih =>
    intro stream acc h1 h2 hbuf
    cases stream with
    | nil => simp at h1
    | cons b rest =>
      rw [List.take_succ_cons] at h2
      have hb : ¬ acc.length ≥ readHeaderBufSize := by
        simp only [readHeaderBufSize] at hbuf ⊢
        omega
      have hcond : ¬ (acc.getLast? = some 13 ∧ b = 10) := by
        rintro ⟨hlast, rfl⟩
        have : hasCRLF (acc ++ 10 :: rest.take f) = true :=
          hasCRLF_of_last13 acc _ hlast
        rw [this] at h2
        cases h2
      have harr : (acc ++ [b]) ++ rest.take f = acc ++ b :: rest.take f := by simp
      have hstep := ih rest (acc ++ [b])
        (by simp only [List.length_cons] at h1; omega) (by rw [harr]; exact h2)
        (by
          simp only [readHeaderBufSize, List.length_append, List.length_cons,
            List.length_nil] at hbuf ⊢
          omega)
      rw [readHeaderLineAux_cons b _ _ _ hb, if_neg hcond, hstep]

/-- When enough CRLF-free bytes are available to fill the 2048-byte buffer
and the iteration budget outlasts it, the loop reaches `buf[2048:2049]` and
panics. -/
theorem readHeaderLineAux_fills_buffer : ∀ (k : Nat) (stream acc : List Nat) (fuel : Nat),
    hasCRLF (acc ++ stream.take k) = false →
    k ≤ stream.length →
    acc.length + k = readHeaderBufSize →
    k + 1 ≤ fuel →
    readHeaderLineAux stream fuel acc = ReadHeaderResult.panicked := by
  intro k
  induction k with
  | zero =>
    intro stream acc fuel _ _ hlen hfuel
    obtain ⟨f, rfl⟩ : ∃ f, fuel = f + 1 := ⟨fuel - 1, by omega⟩
    have hb : acc.length ≥ readHeaderBufSize := by
      simp only [readHeaderBufSize] at hlen ⊢
      omega
    exact readHeaderLineAux_panic stream f acc hb
  | succ k ih =>
    intro stream acc fuel hno hlen hsum hfuel
    obtain ⟨f, rfl⟩ : ∃ f, fuel = f + 1 := ⟨fuel - 1, by omega⟩
    cases stream with
    | nil => simp at hlen
    | cons b rest =>
      have hb : ¬ acc.length ≥ readHeaderBufSize := by
        simp only [readHeaderBufSize] at hsum ⊢
        omega
      rw [List.take_succ_cons] at hno
      have hcond : ¬ (acc.getLast? = some 13 ∧ b = 10) := by
        rintro ⟨hlast, rfl⟩
        have : hasCRLF (acc ++ 10 :: rest.take k) = true :=
          hasCRLF_of_last13 acc _ hlast
        rw [this] at hno
        cases hno
      have harr : (acc ++ [b]) ++ rest.take k = acc ++ b :: rest.take k := by simp
      have hstep := ih rest (acc ++ [b]) f (by rw [harr]; exact hno)
        (by simp only [List.length_cons] at hlen; omega)
        (by
          simp only [readHeaderBufSize, List.length_append, List.length_cons,
            List.length_nil] at hsum ⊢
          omega)
        (by omega)
      rw [readHeaderLineAux_cons b _ _ _ hb, if_neg hcond, hstep]

/-- A run of byte 65 contains no CRLF pair. -/
theorem hasCRLF_replicate_A : ∀ (n : Nat), hasCRLF (List.replicate n 65) = false := by
  intro n
  induction n with
  | zero => rfl
  | succ m ih =>
    cases m with
    | zero => rfl
    | succ m2 =>
      rw [List.replicate_succ, List.replicate_succ]
      have ih2 : hasCRLF (65 :: List.replicate m2 65) = false := by
        rw [← List.replicate_succ]
        rwa [List.replicate_succ] at ih
      show ((65 == 13 && 65 == 10) || hasCRLF (65 :: List.replicate m2 65)) = false
      rw [ih2]
      rfl

/-- C4 counterexample: the claim as stated quantifies over every `maxBytes`,
but the source reads into a fixed `var buf [2048]byte`, so at
`maxBytes = 2049` a 2049-byte CRLF-free stream makes the loop evaluate
`buf[2048:2049]` and panic with a slice-bounds error instead of returning
the header-line-too-long error after consuming `maxBytes` bytes. -/
theorem readHeaderLine_panics_beyond_buffer :
    readHeaderLine (List.replicate 2049 65) 2049 = ReadHeaderResult.panicked ∧
    ReadHeaderResult.panicked ≠ ReadHeaderResult.headerLineTooLong := by
  constructor
  · unfold readHeaderLine
    apply readHeaderLineAux_fills_buffer 2048
    · rw [List.nil_append, List.take_replicate]
      rw [show min 2048 2049 = 2048 by omega]
      exact hasCRLF_replicate_A 2048
    · rw [List.length_replicate]
      omega
    · rw [List.length_nil]
      rfl
    · omega
  · intro h
    cases h

/-- C4 (amended): for every `maxBytes ≤ 2048` — the size of the source's
read buffer, which covers the server's bound 1026 and the client's 1029 —
`readHeaderLine(r, maxBytes)` returns the prefix `L` preceding the first
CR-LF pair whenever that pair completes within the first `maxBytes` bytes
(`L.length + 2 ≤ maxBytes`), and returns the header-line-too-long error
whenever `maxBytes` bytes are consumed without a CR immediately followed by
LF; consequently the server's bound 1026 admits request lines of up to 1024
bytes before CRLF and the client's bound 1029 admits response header lines
of up to 1027 bytes before CRLF.  (For `maxBytes ≥ 2049` the function
panics instead once the buffer fills — see the counterexample.) -/
theorem readHeaderLine_spec :
    (∀ (L rest : List Nat) (maxlen : Nat),
       maxlen ≤ readHeaderBufSize →
       hasCRLF (L ++ [13]) = false → L.length + 2 ≤ maxlen →
       readHeaderLine (L ++ 13 :: 10 :: rest) maxlen = ReadHeaderResult.ok L) ∧
    (∀ (stream : List Nat) (maxlen : Nat),
       maxlen ≤ readHeaderBufSize →
       maxlen ≤ stream.length → hasCRLF (stream.take maxlen) = false →
       readHeaderLine stream maxlen = ReadHeaderResult.headerLineTooLong) ∧
    (∀ (L rest : List Nat),
       hasCRLF (L ++ [13]) = false → L.length ≤ 1024 →
       readHeaderLine (L ++ 13 :: 10 :: rest) serverRequestLineMax = ReadHeaderResult.ok L) ∧
    (∀ (L rest : List Nat),
       hasCRLF (L ++ [13]) = false → L.length ≤ 1027 →
       readHeaderLine (L ++ 13 :: 10 :: rest) clientResponseLineMax = ReadHeaderResult.ok L) := by
  refine ⟨?_, ?_, ?_, ?_⟩
  · intro L rest maxlen hmax hno hlen
    have := readHeaderLineAux_ok L [] rest maxlen (by simpa using hno) hlen
      (by simpa using hmax)
    simpa [readHeaderLine] using this
  · intro stream maxlen hmax h1 h2
    have := readHeaderLineAux_tooLong maxlen stream [] h1 (by simpa using h2)
      (by simpa using hmax)
    simpa [readHeaderLine] using this
  · intro L rest hno hlen
    have := readHeaderLineAux_ok L [] rest serverRequestLineMax (by simpa using hno)
      (by simp only [serverRequestLineMax]; omega)
      (by simp [serverRequestLineMax, readHeaderBufSize])
    simpa [readHeaderLine] using this
  · intro L rest hno hlen
    have := readHeaderLineAux_ok L [] rest clientResponseLineMax (by simpa using hno)
      (by simp only [clientResponseLineMax]; omega)
      (by simp [clientResponseLineMax, readHeaderBufSize])
    simpa [readHeaderLine] using this

/-- C4 witness: the codec theorem applied at concrete streams — a short line
terminated by CRLF under each bound, and a 4-byte CRLF-free stream with
`maxBytes = 4`. -/
theorem readHeaderLine_spec_witness :
    (5 : Nat) ≤ readHeaderBufSize ∧
    hasCRLF ([103] ++ [13]) = false ∧ ([103] : List Nat).length + 2 ≤ 5 ∧
    readHeaderLine ([103] ++ 13 :: 10 :: [55]) 5 = ReadHeaderResult.ok [103] ∧
    (4 : Nat) ≤ readHeaderBufSize ∧
    4 ≤ ([65, 65, 65, 65] : List Nat).length ∧
    hasCRLF (([65, 65, 65, 65] : List Nat).take 4) = false ∧
    readHeaderLine [65, 65, 65, 65] 4 = ReadHeaderResult.headerLineTooLong ∧
    readHeaderLine ([103] ++ 13 :: 10 :: [55]) serverRequestLineMax = ReadHeaderResult.ok [103] ∧
    readHeaderLine ([103] ++ 13 :: 10 :: [55]) clientResponseLineMax = ReadHeaderResult.ok [103] :=
  ⟨by decide, by decide, by decide,
   readHeaderLine_spec.1 [103] [55] 5 (by decide) (by decide) (by decide),
   by decide, by decide, by decide,
   readHeaderLine_spec.2.1 [65, 65, 65, 65] 4 (by decide) (by decide) (by decide),
   readHeaderLine_spec.2.2.1 [103] [55] (by decide) (by decide),
   readHeaderLine_spec.2.2.2 [103] [55] (by decide) (by decide)⟩

/-! ### C3: the client redirect budget -/

/-- The status field of a response header line: the text before the first
space. -/
def statusOf (line : String) : String := (stringsCut line ' ').1

/-- The meta field of a response header line: the text after the first
space. -/
def metaOf (line : String) : String := (stringsCut line ' ').2.1

/-- A nonempty status string has nonzero length. -/
theorem status_length_ne_zero {s : String} (h : s ≠ "") : ¬ s.length = 0 := by
  intro h0
  apply h
  cases s with
  | mk data =>
    cases data with
    | nil => rfl
    | cons c cs => simp [String.length] at h0

/-- Unfolding `clientDo` at a non-`3x` (and nonempty-status) response:
the client returns the response built from that header. -/
theorem clientDo_non3x (server : String → String) (n : Nat) (r : GRequest)
    (hne : statusOf (server r.url.toString) ≠ "")
    (h3 : (statusOf (server r.url.toString)).data.head? ≠ some '3') :
    clientDo server n r =
      Except.ok (mkClientResponse (statusOf (server r.url.toString))
        (metaOf (server r.url.toString))) := by
  have hlen := status_length_ne_zero hne
  simp only [statusOf] at hlen h3
  rw [clientDo]
  simp only [doReqRes, statusOf, metaOf]
  rw [if_neg hlen]
  simp only [if_neg h3]

/-- Unfolding `clientDo` at a `3x` response with the budget exhausted:
`RedirectError` carrying the current URL and the response meta. -/
theorem clientDo_3x_exhausted (server : String → String) (r : GRequest)
    (h3 : (statusOf (server r.url.toString)).data.head? = some '3') :
    clientDo server 0 r =
      Except.error (ClientError.redirectError r.url.toString
        (metaOf (server r.url.toString))) := by
  have hne : ¬ (statusOf (server r.url.toString)).length = 0 := by
    intro h0
    rw [show statusOf (server r.url.toString) = "" by
      cases hs : statusOf (server r.url.toString) with
      | mk data =>
        cases data with
        | nil => rfl
        | cons c cs => rw [hs] at h0; simp [String.length] at h0] at h3
    simp at h3
  simp only [statusOf] at hne h3
  rw [clientDo]
  simp only [doReqRes, statusOf, metaOf]
  rw [if_neg hne]
  simp only [if_pos h3]

/-- Unfolding `clientDo` at a `3x` response with budget remaining: recurse
on the resolved target. -/
theorem clientDo_3x_step (server : String → String) (n : Nat) (r r2 : GRequest)
    (h3 : (statusOf (server r.url.toString)).data.head? = some '3')
    (hreq : NewRequestWithContext (absoluteURL r (metaOf (server r.url.toString))) =
      Except.ok r2) :
    clientDo server (n + 1) r = clientDo server n r2 := by
  have hne : ¬ (statusOf (server r.url.toString)).length = 0 := by
    intro h0
    rw [show statusOf (server r.url.toString) = "" by
      cases hs : statusOf (server r.url.toString) with
      | mk data =>
        cases data with
        | nil => rfl
        | cons c cs => rw [hs] at h0; simp [String.length] at h0] at h3
    simp at h3
  simp only [statusOf] at hne h3
  simp only [metaOf] at hreq
  conv_lhs => rw [clientDo]
  simp only [doReqRes, statusOf, metaOf]
  rw [if_neg hne]
  simp only [if_pos h3, hreq]

/-- A chain of `k` consecutive `3x` hops ending in a non-`3x` response
returns that response, for any budget of at least `k`. -/
theorem clientDo_chain_ok (server : String → String) :
    ∀ (k : Nat) (n : Nat) (r rk : GRequest), chainReq server k r = some rk →
    k ≤ n →
    statusOf (server rk.url.toString) ≠ "" →
    (statusOf (server rk.url.toString)).data.head? ≠ some '3' →
    clientDo server n r =
      Except.ok (mkClientResponse (statusOf (server rk.url.toString))
        (metaOf (server rk.url.toString))) := by
  intro k
  induction k with
  | zero =>
    intro n r rk hchain _ hne h3
    rw [show rk = r by simpa [chainReq] using hchain.symm] at hne h3 ⊢
    exact clientDo_non3x server n r hne h3
  | succ k ih =>
    intro n r rk hchain hkn hne h3
    obtain ⟨m, rfl⟩ : ∃ m, n = m + 1 := ⟨n - 1, by omega⟩
    simp only [chainReq] at hchain
    split at hchain
    case isTrue h3r =>
      cases hnr : NewRequestWithContext
          (absoluteURL r (stringsCut (server r.url.toString) ' ').2.1) with
      | error e => rw [hnr] at hchain; cases hchain
      | ok r2 =>
        rw [hnr] at hchain
        rw [clientDo_3x_step server m r r2 (by simpa [statusOf] using h3r)
          (by simpa [metaOf] using hnr)]
        exact ih m r2 rk hchain (by omega) hne h3
    case isFalse h3r => cases hchain

/-- A chain of `n` consecutive `3x` hops followed by one more `3x` response
exhausts a budget of `n` and fails with `RedirectError` carrying the last
request's URL and that response's meta. -/
theorem clientDo_chain_exhausted (server : String → String) :
    ∀ (n : Nat) (r rn : GRequest), chainReq server n r = some rn →
    (statusOf (server rn.url.toString)).data.head? = some '3' →
    clientDo server n r =
      Except.error (ClientError.redirectError rn.url.toString
        (metaOf (server rn.url.toString))) := by
  intro n
  induction n with
  | zero =>
    intro r rn hchain h3
    rw [show rn = r by simpa [chainReq] using hchain.symm] at h3 ⊢
    exact clientDo_3x_exhausted server r h3
  | succ n ih =>
    intro r rn hchain h3
    simp only [chainReq] at hchain
    split at hchain
    case isTrue h3r =>
      cases hnr : NewRequestWithContext
          (absoluteURL r (stringsCut (server r.url.toString) ' ').2.1) with
      | error e => rw [hnr] at hchain; cases hchain
      | ok r2 =>
        rw [hnr] at hchain
        rw [clientDo_3x_step server n r r2 (by simpa [statusOf] using h3r)
          (by simpa [metaOf] using hnr)]
        exact ih r2 rn hchain h3
    case isFalse h3r => cases hchain

/-- C3: `Client.Do` follows at most 5 consecutive redirects.  A chain of
`k ≤ 5` consecutive `3x` hops ending in a non-`3x` response returns that
response; when all of the first 5 hops are `3x` and the 6th response is
again `3x`, `Do` returns `RedirectError` whose `LastURL` is the URL of the
6th request sent and whose `NextURL` is that 6th response's meta. -/
theorem client_redirect_budget :
    (∀ (server : String → String) (r : GRequest) (k : Nat) (rk : GRequest),
       r.url.scheme = "gemini" →
       k ≤ maxRedirects →
       chainReq server k r = some rk →
       statusOf (server rk.url.toString) ≠ "" →
       (statusOf (server rk.url.toString)).data.head? ≠ some '3' →
       ClientDo server r =
         Except.ok (mkClientResponse (statusOf (server rk.url.toString))
           (metaOf (server rk.url.toString)))) ∧
    (∀ (server : String → String) (r r5 : GRequest),
       r.url.scheme = "gemini" →
       chainReq server maxRedirects r = some r5 →
       (statusOf (server r5.url.toString)).data.head? = some '3' →
       ClientDo server r =
         Except.error (ClientError.redirectError r5.url.toString
           (metaOf (server r5.url.toString)))) := by
  constructor
  · intro server r k rk hscheme hk hchain hne h3
    unfold ClientDo
    rw [if_neg (by simp [hscheme])]
    exact clientDo_chain_ok server k maxRedirects r rk hchain hk hne h3
  · intro server r r5 hscheme hchain h3
    unfold ClientDo
    rw [if_neg (by simp [hscheme])]
    exact clientDo_chain_exhausted server maxRedirects r r5 hchain h3

/-- A server that redirects `gemini://h/a` once and otherwise answers
success. -/
def serverC3a : String → String := fun u =>
  if u = "gemini://h/a" then "30 /b" else "20 text/gemini"

/-- A server that always redirects. -/
def serverC3b : String → String := fun _ => "31 /next"

/-- The initial request of the C3 witness chains. -/
def reqC3 : GRequest :=
  { url := { scheme := "gemini", opaquePart := "", host := "h", path := "/a", rawQuery := "" }
    host := "h" }

/-- The request after one hop of `serverC3a` (and after every hop of
`serverC3b`). -/
def reqC3next (p : String) : GRequest :=
  { url := { scheme := "gemini", opaquePart := "", host := "h", path := p, rawQuery := "" }
    host := "h" }

/-- C3 witness: the redirect-budget theorem applied to a 1-hop chain that
ends in a success response, and to an always-redirecting server where the
6th response exhausts the budget. -/
theorem client_redirect_budget_witness :
    reqC3.url.scheme = "gemini" ∧ 1 ≤ maxRedirects ∧
    chainReq serverC3a 1 reqC3 = some (reqC3next "/b") ∧
    statusOf (serverC3a (reqC3next "/b").url.toString) ≠ "" ∧
    (statusOf (serverC3a (reqC3next "/b").url.toString)).data.head? ≠ some '3' ∧
    ClientDo serverC3a reqC3 =
      Except.ok (mkClientResponse (statusOf (serverC3a (reqC3next "/b").url.toString))
        (metaOf (serverC3a (reqC3next "/b").url.toString))) ∧
    chainReq serverC3b maxRedirects reqC3 = some (reqC3next "/next") ∧
    (statusOf (serverC3b (reqC3next "/next").url.toString)).data.head? = some '3' ∧
    ClientDo serverC3b reqC3 =
      Except.error (ClientError.redirectError (reqC3next "/next").url.toString
        (metaOf (serverC3b (reqC3next "/next").url.toString))) :=
  ⟨rfl, by decide, by decide, by decide, by decide,
   client_redirect_budget.1 serverC3a reqC3 1 (reqC3next "/b") rfl (by decide)
     (by decide) (by decide) (by decide),
   by decide, by decide,
   client_redirect_budget.2 serverC3b reqC3 (reqC3next "/next") rfl (by decide) (by decide)⟩

/-! ### C9: the shape of successful client responses -/

/-- A server answering a one-digit status, outside 10–69. -/
def serverC9 : String → String := fun _ => "7 oops"

/-- The request used for the C9 counterexample. -/
def reqC9 : GRequest :=
  { url := { scheme := "gemini", opaquePart := "", host := "h", path := "/", rawQuery := "" }
    host := "h" }

/-- C9 counterexample: the client performs no range validation of the
status field — `strconv.Atoi`'s error is discarded — so a server header
`"7 oops"` yields a `Response` with `StatusCode = 7`, returned without
error, falsifying the claim that every error-free `Response` has a
two-digit `StatusCode` in 10–69. -/
theorem clientDo_status_out_of_range :
    ClientDo serverC9 reqC9 =
      Except.ok { statusCode := 7, meta := "oops", body := RBody.nop } ∧
    ¬ (10 ≤ (7 : Int) ∧ (7 : Int) ≤ 69) := by
  exact ⟨by decide, by decide⟩

/-- C9 (amended): every `Response` returned without error by `Client.Do` is
built by `mkClientResponse` from a header whose status field is nonempty and
does not begin with `'3'`; its `StatusCode` is Go `Atoi` of that field (`0`
when unparsable — not necessarily in 10–69), and its `Body` is never nil:
the underlying connection exactly when the status field begins with `'2'`,
and the empty closed reader otherwise. -/
theorem clientDo_ok_response_shape :
    ∀ (server : String → String) (n : Nat) (r : GRequest) (resp : GResponse),
    clientDo server n r = Except.ok resp →
    ∃ status meta : String, status ≠ "" ∧ status.data.head? ≠ some '3' ∧
      resp = mkClientResponse status meta ∧
      resp.statusCode = atoiModel status ∧
      (resp.body = RBody.conn ↔ status.data.head? = some '2') ∧
      (resp.body = RBody.conn ∨ resp.body = RBody.nop) := by
  intro server n
  induction n with
  | zero =>
    intro r resp hok
    rw [clientDo] at hok
    simp only [doReqRes] at hok
    by_cases hlen : ((stringsCut (server r.url.toString) ' ').1).length = 0
    · rw [if_pos hlen] at hok; cases hok
    · rw [if_neg hlen] at hok
      simp only [] at hok
      by_cases h3 : ((stringsCut (server r.url.toString) ' ').1).data.head? = some '3'
      · rw [if_pos h3] at hok; cases hok
      · rw [if_neg h3] at hok
        refine ⟨(stringsCut (server r.url.toString) ' ').1,
          (stringsCut (server r.url.toString) ' ').2.1, ?_, h3, ?_, ?_, ?_, ?_⟩
        · intro he
          rw [he] at hlen
          exact hlen rfl
        · exact (Except.ok.injEq _ _ ▸ hok).symm ▸ rfl
        · cases hok; rfl
        · cases hok
          constructor
          · intro hb
            by_contra h2
            simp [mkClientResponse, if_neg h2] at hb
          · intro h2
            simp [mkClientResponse, if_pos h2]
        · cases hok
          by_cases h2 : ((stringsCut (server r.url.toString) ' ').1).data.head? = some '2'
          · left; simp [mkClientResponse, if_pos h2]
          · right; simp [mkClientResponse, if_neg h2]
  | succ n ih =>
    intro r resp hok
    rw [clientDo] at hok
    simp only [doReqRes] at hok
    by_cases hlen : ((stringsCut (server r.url.toString) ' ').1).length = 0
    · rw [if_pos hlen] at hok; cases hok
    · rw [if_neg hlen] at hok
      simp only [] at hok
      by_cases h3 : ((stringsCut (server r.url.toString) ' ').1).data.head? = some '3'
      · rw [if_pos h3] at hok
        cases hnr : NewRequestWithContext
            (absoluteURL r ((stringsCut (server r.url.toString) ' ').2.1)) with
        | error e => rw [hnr] at hok; cases hok
        | ok r2 =>
          rw [hnr] at hok
          exact ih r2 resp hok
      · rw [if_neg h3] at hok
        refine ⟨(stringsCut (server r.url.toString) ' ').1,
          (stringsCut (server r.url.toString) ' ').2.1, ?_, h3, ?_, ?_, ?_, ?_⟩
        · intro he
          rw [he] at hlen
          exact hlen rfl
        · cases hok; rfl
        · cases hok; rfl
        · cases hok
          constructor
          · intro hb
            by_contra h2
            simp [mkClientResponse, if_neg h2] at hb
          · intro h2
            simp [mkClientResponse, if_pos h2]
        · cases hok
          by_cases h2 : ((stringsCut (server r.url.toString) ' ').1).data.head? = some '2'
          · left; simp [mkClientResponse, if_pos h2]
          · right; simp [mkClientResponse, if_neg h2]

/-- C9 witness: the amended response-shape theorem applied at a concrete
successful exchange. -/
theorem clientDo_ok_response_shape_witness :
    clientDo (fun _ => "20 text/gemini") 5 reqC3 =
      Except.ok (mkClientResponse "20" "text/gemini") ∧
    (∃ status meta : String, status ≠ "" ∧ status.data.head? ≠ some '3' ∧
      mkClientResponse "20" "text/gemini" = mkClientResponse status meta ∧
      (mkClientResponse "20" "text/gemini").statusCode = atoiModel status ∧
      ((mkClientResponse "20" "text/gemini").body = RBody.conn ↔
        status.data.head? = some '2') ∧
      ((mkClientResponse "20" "text/gemini").body = RBody.conn ∨
        (mkClientResponse "20" "text/gemini").body = RBody.nop)) :=
  ⟨by decide,
   clientDo_ok_response_shape (fun _ => "20 text/gemini") 5 reqC3
     (mkClientResponse "20" "text/gemini") (by decide)⟩

/-! ### C6: the mux lookup order -/

/-- Descending pattern length, the order `appendSorted` maintains. -/
def entRel (a b : MuxEntry) : Prop := b.pattern.length ≤ a.pattern.length

/-- `List.lookup` distributes over append, left-biased. -/
theorem lookup_append (l1 l2 : List (String × MuxEntry)) (k : String) :
    (l1 ++ l2).lookup k = ((l1.lookup k).orElse (fun _ => l2.lookup k)) := by
  induction l1 with
  | nil => simp [List.lookup]
  | cons a t ih =>
    by_cases h : k == a.1
    · simp [List.lookup, h, Option.orElse]
    · simp only [List.cons_append, List.lookup, h]
      exact ih

/-- A key present in the map has a lookup value. -/
theorem lookup_of_mem_keys : ∀ (l : List (String × MuxEntry)) (k : String),
    k ∈ l.map Prod.fst → ∃ v, l.lookup k = some v := by
  intro l
  induction l with
  | nil => intro k h; simp at h
  | cons a t ih =>
    intro k h
    by_cases he : k == a.1
    · exact ⟨a.2, by simp [List.lookup, he]⟩
    · simp only [List.map_cons, List.mem_cons] at h
      cases h with
      | inl h => exact absurd (by simp [h]) he
      | inr h =>
        obtain ⟨v, hv⟩ := ih k h
        exact ⟨v, by simp [List.lookup, he, hv]⟩

/-- A lookup hit means the key is in the map. -/
theorem mem_keys_of_lookup : ∀ (l : List (String × MuxEntry)) (k : String) (v : MuxEntry),
    l.lookup k = some v → k ∈ l.map Prod.fst := by
  intro l
  induction l with
  | nil => intro k v h; simp [List.lookup] at h
  | cons a t ih =>
    intro k v h
    by_cases he : k == a.1
    · simp [List.map_cons, eq_of_beq he]
    · simp only [List.lookup, he] at h
      simp only [List.map_cons, List.mem_cons]
      exact Or.inr (ih k v h)

/-- A pattern ends in `'/'` iff its last character is `'/'`. -/
theorem strEndsWith_slash (p : String) :
    strEndsWith p "/" = true ↔ p.data.getLast? = some '/' := by
  show (List.isSuffixOf ['/'] p.data) = true ↔ _
  rw [List.isSuffixOf]
  rw [show (['/'] : List Char).reverse = ['/'] from rfl]
  rw [← List.head?_reverse]
  cases p.data.reverse with
  | nil => simp [List.isPrefixOf]
  | cons c cs =>
    simp only [List.isPrefixOf, List.head?_cons, Option.some.injEq, Bool.and_true]
    constructor
    · intro h; exact (eq_of_beq h).symm
    · intro h; simp [h]

/-- Membership in an `appendSorted` result. -/
theorem mem_appendSorted : ∀ (es : List MuxEntry) (e a : MuxEntry),
    a ∈ appendSorted es e ↔ a ∈ es ∨ a = e := by
  intro es
  induction es with
  | nil => intro e a; simp [appendSorted]
  | cons x xs ih =>
    intro e a
    by_cases h : x.pattern.length < e.pattern.length
    · simp only [appendSorted, if_pos h, List.mem_cons]
      tauto
    · simp only [appendSorted, if_neg h, List.mem_cons, ih]
      tauto

/-- `appendSorted` preserves the descending-length order. -/
theorem pairwise_appendSorted : ∀ (es : List MuxEntry) (e : MuxEntry),
    List.Pairwise entRel es → List.Pairwise entRel (appendSorted es e) := by
  intro es
  induction es with
  | nil => intro e _; simp [appendSorted, List.pairwise_singleton]
  | cons x xs ih =>
    intro e hp
    rw [List.pairwise_cons] at hp
    obtain ⟨hx, hxs⟩ := hp
    by_cases h : x.pattern.length < e.pattern.length
    · rw [appendSorted, if_pos h, List.pairwise_cons]
      refine ⟨?_, ?_⟩
      · intro b hb
        rcases List.mem_cons.mp hb with rfl | hb2
        · exact Nat.le_of_lt h
        · exact Nat.le_trans (hx b hb2) (Nat.le_of_lt h)
      · rw [List.pairwise_cons]
        exact ⟨hx, hxs⟩
    · rw [appendSorted, if_neg h, List.pairwise_cons]
      refine ⟨?_, ih e hxs⟩
      intro b hb
      rcases (mem_appendSorted xs e b).mp hb with hb2 | rfl
      · exact hx b hb2
      · exact Nat.le_of_not_lt h

/-- The well-formedness invariant `Handle` maintains: the exact map stores
each entry under its own pattern; the prefix list is sorted by descending
length and contains exactly the `/`-terminated registered entries. -/
structure MuxWF (mux : ServeMux) : Prop where
  patkey : ∀ p e, mux.exact.lookup p = some e → e.pattern = p
  sorted : List.Pairwise entRel mux.entries
  inExact : ∀ e ∈ mux.entries,
    mux.exact.lookup e.pattern = some e ∧ strEndsWith e.pattern "/" = true
  slashIn : ∀ p e, mux.exact.lookup p = some e → strEndsWith p "/" = true →
    e ∈ mux.entries

/-- The empty mux is well formed. -/
theorem muxWF_new : MuxWF NewServeMux := by
  refine ⟨?_, ?_, ?_, ?_⟩
  · intro p e h; simp [NewServeMux, List.lookup] at h
  · simp [NewServeMux]
  · intro e he; simp [NewServeMux] at he
  · intro p e h; simp [NewServeMux, List.lookup] at h

/-- `Handle` preserves well-formedness and the not-found handler. -/
theorem handle_WF (mux mux2 : ServeMux) (pat : String) (hd : GemHandler)
    (hWF : MuxWF mux) (hH : mux.Handle pat hd = some mux2) :
    MuxWF mux2 ∧ mux2.notFound = mux.notFound ∧
    mux2.exact = mux.exact ++ [(pat, MuxEntry.mk pat hd)] := by
  unfold ServeMux.Handle at hH
  by_cases hemp : pat = ""
  · rw [if_pos hemp] at hH; cases hH
  rw [if_neg hemp] at hH
  by_cases hdup : (mux.exact.lookup pat).isSome
  · rw [if_pos hdup] at hH; cases hH
  rw [if_neg hdup] at hH
  have hnone : mux.exact.lookup pat = none := by
    cases hl : mux.exact.lookup pat with
    | none => rfl
    | some v => rw [hl] at hdup; simp at hdup
  injection hH with hH
  subst hH
  have hlook : ∀ (p : String),
      (mux.exact ++ [(pat, MuxEntry.mk pat hd)]).lookup p =
        if p = pat then
          (mux.exact.lookup p).orElse (fun _ => some (MuxEntry.mk pat hd))
        else mux.exact.lookup p := by
    intro p
    rw [lookup_append]
    by_cases hp : p = pat
    · rw [if_pos hp]
      subst hp
      simp [List.lookup]
    · rw [if_neg hp]
      have : ([(pat, MuxEntry.mk pat hd)].lookup p) = none := by
        simp [List.lookup, beq_eq_false_iff_ne.mpr hp]
      rw [this]
      cases mux.exact.lookup p <;> simp [Option.orElse]
  refine ⟨⟨?_, ?_, ?_, ?_⟩, rfl, rfl⟩
  · intro p e h
    simp only [hlook] at h
    by_cases hp : p = pat
    · rw [if_pos hp] at h
      subst hp
      rw [hnone] at h
      simp [Option.orElse] at h
      rw [← h]
    · rw [if_neg hp] at h
      exact hWF.patkey p e h
  · by_cases hsl : pat.data.getLast? = some '/'
    · simp only [if_pos hsl]
      exact pairwise_appendSorted _ _ hWF.sorted
    · simp only [if_neg hsl]
      exact hWF.sorted
  · intro e he
    by_cases hsl : pat.data.getLast? = some '/'
    · simp only [if_pos hsl] at he
      rcases (mem_appendSorted _ _ _).mp he with he2 | rfl
      · obtain ⟨h1, h2⟩ := hWF.inExact e he2
        refine ⟨?_, h2⟩
        rw [hlook]
        by_cases hp : e.pattern = pat
        · rw [hp] at h1; rw [hnone] at h1; cases h1
        · rw [if_neg hp]; exact h1
      · refine ⟨?_, (strEndsWith_slash pat).mpr hsl⟩
        show (mux.exact ++ [(pat, MuxEntry.mk pat hd)]).lookup pat = _
        rw [hlook, if_pos rfl, hnone]
        rfl
    · simp only [if_neg hsl] at he
      obtain ⟨h1, h2⟩ := hWF.inExact e he
      refine ⟨?_, h2⟩
      rw [hlook]
      by_cases hp : e.pattern = pat
      · rw [hp] at h1; rw [hnone] at h1; cases h1
      · rw [if_neg hp]; exact h1
  · intro p e h hsl
    rw [hlook] at h
    by_cases hp : p = pat
    · rw [if_pos hp] at h
      subst hp
      rw [hnone] at h
      simp [Option.orElse] at h
      have hsl2 : p.data.getLast? = some '/' := (strEndsWith_slash p).mp hsl
      simp only [if_pos hsl2]
      rw [← h]
      exact (mem_appendSorted _ _ _).mpr (Or.inr rfl)
    · rw [if_neg hp] at h
      have he := hWF.slashIn p e h hsl
      by_cases hsl2 : pat.data.getLast? = some '/'
      · simp only [if_pos hsl2]
        exact (mem_appendSorted _ _ _).mpr (Or.inl he)
      · simp only [if_neg hsl2]
        exact he

/-- `buildMux` yields well-formed muxes with the initial not-found handler. -/
theorem buildMux_WF : ∀ (regs : List (String × GemHandler)) (m0 m : ServeMux),
    MuxWF m0 → buildMux regs m0 = some m →
    MuxWF m ∧ m.notFound = m0.notFound := by
  intro regs
  induction regs with
  | nil =>
    intro m0 m h0 hb
    injection hb with hb
    subst hb
    exact ⟨h0, rfl⟩
  | cons r rest ih =>
    intro m0 m h0 hb
    simp only [buildMux] at hb
    cases hh : m0.Handle r.1 r.2 with
    | none => rw [hh] at hb; cases hb
    | some m1 =>
      rw [hh] at hb
      obtain ⟨h1, hnf, _⟩ := handle_WF m0 m1 r.1 r.2 h0 hh
      obtain ⟨h2, hnf2⟩ := ih m1 m h1 hb
      exact ⟨h2, hnf2.trans hnf⟩

/-- `find?` on a descending-sorted list returns a matching entry of maximal
pattern length. -/
theorem find?_longest (s : String) : ∀ (es : List MuxEntry),
    List.Pairwise entRel es →
    ∀ e, es.find? (fun x => strStartsWith s x.pattern) = some e →
    e ∈ es ∧ strStartsWith s e.pattern = true ∧
      ∀ e' ∈ es, strStartsWith s e'.pattern = true →
        e'.pattern.length ≤ e.pattern.length := by
  intro es
  induction es with
  | nil => intro _ e h; simp at h
  | cons x xs ih =>
    intro hp e h
    rw [List.pairwise_cons] at hp
    obtain ⟨hx, hxs⟩ := hp
    by_cases hpred : strStartsWith s x.pattern = true
    · simp only [List.find?, hpred] at h
      injection h with h
      subst h
      refine ⟨List.mem_cons_self _ _, hpred, ?_⟩
      intro e' he' _
      rcases List.mem_cons.mp he' with rfl | he2
      · exact Nat.le_refl _
      · exact hx e' he2
    · have hpred2 : strStartsWith s x.pattern = false := by simpa using hpred
      simp only [List.find?, hpred2] at h
      obtain ⟨hmem, hpred2, hmax⟩ := ih hxs e h
      refine ⟨List.mem_cons_of_mem _ hmem, hpred2, ?_⟩
      intro e' he' hpe'
      rcases List.mem_cons.mp he' with rfl | he2
      · exact absurd hpe' hpred
      · exact hmax e' he2 hpe'

/-- Folding `pickLonger` from a seeded candidate yields a maximal one. -/
theorem pickLonger_foldl_some : ∀ (cands : List String) (q0 : String),
    ∃ q, cands.foldl pickLonger (some q0) = some q ∧ (q ∈ cands ∨ q = q0) ∧
      q0.length ≤ q.length ∧ ∀ p ∈ cands, p.length ≤ q.length := by
  intro cands
  induction cands with
  | nil => intro q0; exact ⟨q0, rfl, Or.inr rfl, Nat.le_refl _, by simp⟩
  | cons c cs ih =>
    intro q0
    by_cases h : q0.length < c.length
    · obtain ⟨q, hq, hmem, hle, hmax⟩ := ih c
      refine ⟨q, ?_, ?_, ?_, ?_⟩
      · simpa [pickLonger, if_pos h] using hq
      · rcases hmem with h2 | rfl
        · exact Or.inl (List.mem_cons_of_mem _ h2)
        · exact Or.inl (List.mem_cons_self _ _)
      · exact Nat.le_trans (Nat.le_of_lt h) hle
      · intro p hp
        rcases List.mem_cons.mp hp with rfl | hp2
        · exact hle
        · exact hmax p hp2
    · obtain ⟨q, hq, hmem, hle, hmax⟩ := ih q0
      refine ⟨q, ?_, ?_, hle, ?_⟩
      · simpa [pickLonger, if_neg h] using hq
      · rcases hmem with h2 | rfl
        · exact Or.inl (List.mem_cons_of_mem _ h2)
        · exact Or.inr rfl
      · intro p hp
        rcases List.mem_cons.mp hp with rfl | hp2
        · exact Nat.le_trans (Nat.le_of_not_lt h) hle
        · exact hmax p hp2

/-- Folding `pickLonger` over a nonempty candidate list yields a member of
maximal length. -/
theorem pickLonger_foldl_nonempty (c : String) (cs : List String) :
    ∃ q, (c :: cs).foldl pickLonger none = some q ∧ q ∈ c :: cs ∧
      ∀ p ∈ c :: cs, p.length ≤ q.length := by
  obtain ⟨q, hq, hmem, hle, hmax⟩ := pickLonger_foldl_some cs c
  refine ⟨q, by simpa [pickLonger] using hq, ?_, ?_⟩
  · rcases hmem with h2 | rfl
    · exact List.mem_cons_of_mem _ h2
    · exact List.mem_cons_self _ _
  · intro p hp
    rcases List.mem_cons.mp hp with rfl | hp2
    · exact hle
    · exact hmax p hp2

/-- Two prefixes of the same string with equal lengths are equal. -/
theorem prefix_eq_of_length (p1 p2 s : String)
    (h1 : strStartsWith s p1 = true) (h2 : strStartsWith s p2 = true)
    (hl : p1.length = p2.length) : p1 = p2 := by
  have hp1 : p1.data <+: s.data := by
    simpa [strStartsWith, List.isPrefixOf_iff_prefix] using h1
  have hp2 : p2.data <+: s.data := by
    simpa [strStartsWith, List.isPrefixOf_iff_prefix] using h2
  have hll : p1.data.length = p2.data.length := hl
  have h12 : p1.data <+: p2.data :=
    List.prefix_of_prefix_length_le hp1 hp2 (by omega)
  have hdata : p1.data = p2.data := List.IsPrefix.eq_of_length h12 hll
  cases p1
  cases p2
  exact congrArg String.mk (by simpa using hdata)

/-- On a well-formed mux, `match` agrees with the spec-side single-string
lookup: exact hit first, then the longest registered `/`-terminated
prefix. -/
theorem matchPath_eq_spec (mux : ServeMux) (hWF : MuxWF mux) (s : String) :
    mux.matchPath s = muxMatchSpec mux s := by
  unfold ServeMux.matchPath muxMatchSpec
  cases hex : mux.exact.lookup s with
  | some e => simp [Option.orElse]
  | none =>
    simp only [Option.map_none', Option.none_orElse]
    cases hf : mux.entries.find? (fun e => strStartsWith s e.pattern) with
    | none =>
      have hcands : ((mux.exact.map Prod.fst).filter
          (fun p => strEndsWith p "/" && strStartsWith s p)) = [] := by
        rw [List.filter_eq_nil_iff]
        intro p hp hcond
        simp only [Bool.and_eq_true] at hcond
        obtain ⟨v, hv⟩ := lookup_of_mem_keys mux.exact p hp
        have hpat := hWF.patkey p v hv
        have hmem := hWF.slashIn p v hv hcond.1
        have := List.find?_eq_none.mp hf v hmem
        rw [hpat] at this
        exact this hcond.2
      simp [longestSlashPrefixSpec, hcands]
    | some e =>
      obtain ⟨hmem, hpred, hmax⟩ := find?_longest s mux.entries hWF.sorted e hf
      obtain ⟨hlook, hslash⟩ := hWF.inExact e hmem
      have hpin : e.pattern ∈ ((mux.exact.map Prod.fst).filter
          (fun p => strEndsWith p "/" && strStartsWith s p)) := by
        rw [List.mem_filter]
        exact ⟨mem_keys_of_lookup mux.exact e.pattern e hlook, by simp [hslash, hpred]⟩
      cases hcands : ((mux.exact.map Prod.fst).filter
          (fun p => strEndsWith p "/" && strStartsWith s p)) with
      | nil => rw [hcands] at hpin; cases hpin
      | cons c cs =>
        obtain ⟨q, hq, hqmem, hqmax⟩ := pickLonger_foldl_nonempty c cs
        rw [← hcands] at hqmem hqmax
        rw [List.mem_filter, Bool.and_eq_true] at hqmem
        have hqkey := hqmem.1
        have hqslash := hqmem.2.1
        have hqpref := hqmem.2.2
        obtain ⟨vq, hvq⟩ := lookup_of_mem_keys mux.exact q hqkey
        have hvqpat := hWF.patkey q vq hvq
        have hvqmem := hWF.slashIn q vq hvq hqslash
        have hle1 : q.length ≤ e.pattern.length := by
          have := hmax vq hvqmem (by rwa [hvqpat])
          rwa [hvqpat] at this
        have hle2 : e.pattern.length ≤ q.length := hqmax e.pattern hpin
        have hqe : q = e.pattern :=
          prefix_eq_of_length q e.pattern s hqpref hpred (by omega)
        rw [longestSlashPrefixSpec, hcands, hq, hqe]
        simp [Option.bind, hlook]

/-- On a well-formed mux with a configured not-found handler, `handler`
agrees with the spec-side lookup order. -/
theorem handlerLookup_eq_spec (mux : ServeMux) (hWF : MuxWF mux)
    (nf : GemHandler) (hnf : mux.notFound = some nf) (host path : String) :
    mux.handlerLookup host path = muxLookupSpec mux host path := by
  unfold ServeMux.handlerLookup muxLookupSpec
  rw [matchPath_eq_spec mux hWF (host ++ path), matchPath_eq_spec mux hWF path, hnf]
  by_cases hh : mux.hosts
  · rw [if_pos hh]
    cases hm1 : muxMatchSpec mux (host ++ path) with
    | some hp => simp [Option.orElse]
    | none =>
      cases hm2 : muxMatchSpec mux path with
      | some hp => simp [Option.orElse]
      | none => simp [Option.orElse]
  · rw [if_neg hh]
    cases hm2 : muxMatchSpec mux path with
    | some hp => simp [Option.orElse]
    | none => simp [Option.orElse]

/-- C6: on any mux built by a sequence of `Handle` registrations, the lookup
returns the handler of the first match in the claimed order — exact on
`host + path`, longest registered `/`-terminated prefix of `host + path`
(both only in hosts mode), exact on `path`, longest `/`-terminated prefix of
`path`, else the configured not-found handler — and the not-found handler is
the non-nil default, so the returned handler is never nil (the lookup is a
total function into handlers). -/
theorem mux_lookup_order (regs : List (String × GemHandler)) (mux : ServeMux)
    (host path : String) (hbuild : buildMux regs NewServeMux = some mux) :
    mux.handlerLookup host path = muxLookupSpec mux host path ∧
    mux.notFound = some GemHandler.notFoundFn := by
  obtain ⟨hWF, hnf⟩ := buildMux_WF regs NewServeMux mux muxWF_new hbuild
  have hnf2 : mux.notFound = some GemHandler.notFoundFn := hnf
  exact ⟨handlerLookup_eq_spec mux hWF GemHandler.notFoundFn hnf2 host path, hnf2⟩

/-- The registrations of the C6 witness. -/
def regsC6 : List (String × GemHandler) :=
  [("/index.gmi", GemHandler.user 0), ("example.com/", GemHandler.user 1),
   ("/a/", GemHandler.user 2), ("/a/b/", GemHandler.user 3)]

/-- The mux `regsC6` builds. -/
def muxC6 : ServeMux :=
  { exact := [("/index.gmi", MuxEntry.mk "/index.gmi" (GemHandler.user 0)),
              ("example.com/", MuxEntry.mk "example.com/" (GemHandler.user 1)),
              ("/a/", MuxEntry.mk "/a/" (GemHandler.user 2)),
              ("/a/b/", MuxEntry.mk "/a/b/" (GemHandler.user 3))]
    entries := [MuxEntry.mk "example.com/" (GemHandler.user 1),
                MuxEntry.mk "/a/b/" (GemHandler.user 3),
                MuxEntry.mk "/a/" (GemHandler.user 2)]
    hosts := true
    notFound := some GemHandler.notFoundFn }

/-- C6 witness: the lookup-order theorem applied to a concretely built mux
and request. -/
theorem mux_lookup_order_witness :
    buildMux regsC6 NewServeMux = some muxC6 ∧
    (muxC6.handlerLookup "example.com" "/a/b/c" =
        muxLookupSpec muxC6 "example.com" "/a/b/c" ∧
      muxC6.notFound = some GemHandler.notFoundFn) :=
  ⟨by decide, mux_lookup_order regsC6 muxC6 "example.com" "/a/b/c" (by decide)⟩

/-! ### C7: the canonicalization redirect -/

/-- A string has length zero iff it is empty. -/
theorem string_length_zero_iff (s : String) : s.length = 0 ↔ s = "" := by
  cases s with
  | mk data =>
    cases data with
    | nil => simp [String.length]
    | cons c cs => simp [String.length, String.ext_iff]

/-- `shouldRedirect` holds exactly under the claim's four conditions. -/
theorem shouldRedirect_iff (mux : ServeMux) (host path : String) :
    mux.shouldRedirect host path = true ↔
      (path ≠ "" ∧ path.data.getLast? ≠ some '/' ∧
       mux.exact.lookup path = none ∧ mux.exact.lookup (host ++ path) = none ∧
       (mux.exact.lookup (path ++ "/") ≠ none ∨
        mux.exact.lookup (host ++ path ++ "/") ≠ none)) := by
  unfold ServeMux.shouldRedirect
  cases h1 : mux.exact.lookup path with
  | some v => simp [h1]
  | none =>
  cases h2 : mux.exact.lookup (host ++ path) with
  | some v => simp [h2]
  | none =>
  by_cases hlen : path.length = 0
  · have hpe : path = "" := (string_length_zero_iff path).mp hlen
    simp [hlen, hpe]
  · have hne : path ≠ "" := fun he => hlen ((string_length_zero_iff path).mpr he)
    cases h3 : mux.exact.lookup (path ++ "/") with
    | some v => simp [hlen, h3, hne]
    | none =>
    cases h4 : mux.exact.lookup (host ++ path ++ "/") with
    | some v => simp [hlen, h3, h4, hne]
    | none => simp [hlen, h3, h4, hne]

/-- `cleanPath` output always begins with a slash. -/
theorem cleanPath_head_slash (p : String) : (cleanPath p).data.head? = some '/' := by
  unfold cleanPath
  by_cases hp : p = ""
  · rw [if_pos hp]; rfl
  · rw [if_neg hp]
    simp only []
    set p2 := if p.data.head? = some '/' then p else "/" ++ p with hp2
    have hhead : p2.data.head? = some '/' := by
      by_cases hh : p.data.head? = some '/'
      · rw [hp2, if_pos hh]; exact hh
      · rw [hp2, if_neg hh]
        simp [String.data_append]
    have hne : ¬ p2 = "" := by
      intro h0
      rw [h0] at hhead
      cases hhead
    have hnp : (pathClean p2).data.head? = some '/' := by
      unfold pathClean
      rw [if_neg hne]
      simp only []
      rw [if_pos hhead]
      simp [String.data_append]
    split
    · obtain ⟨rest, hrest⟩ : ∃ rest, (pathClean p2).data = '/' :: rest := by
        cases hd : (pathClean p2).data with
        | nil => rw [hd] at hnp; cases hnp
        | cons c cs =>
          rw [hd] at hnp
          simp only [List.head?_cons, Option.some.injEq] at hnp
          exact ⟨cs, by rw [hnp]⟩
      simp [String.data_append, hrest]
    · exact hnp

/-- `String.mk "" "" "" p q |>.toString` for a slash-rooted path is the path
followed by the optional query string. -/
theorem urlString_pathQuery (p q : String) (hp : p.data.head? = some '/') :
    (URL.mk "" "" "" p q).toString = p ++ (if q ≠ "" then "?" ++ q else "") := by
  obtain ⟨rest, hrest⟩ : ∃ rest, p.data = '/' :: rest := by
    cases hd : p.data with
    | nil => rw [hd] at hp; cases hp
    | cons c cs =>
      rw [hd] at hp
      simp only [List.head?_cons, Option.some.injEq] at hp
      exact ⟨cs, by rw [hp]⟩
  unfold URL.toString stringsCut
  simp [hrest, strStartsWith, firstIndexOf]

/-- C7: for a mux and a request whose path is already in cleaned form (and
gemini scheme), `ServeMux.Handler` synthesizes a permanent-redirect (31)
handler targeting `path + "/"` with the query string preserved exactly when
`shouldRedirect` holds, and `shouldRedirect` holds iff: the path is
non-empty, does not end in `'/'`, neither `path` nor `host + path` is
registered exactly, and `path + "/"` or `host + path + "/"` is registered
exactly. -/
theorem mux_canonicalization_redirect :
    (∀ (mux : ServeMux) (host path : String),
       mux.shouldRedirect host path = true ↔
         (path ≠ "" ∧ path.data.getLast? ≠ some '/' ∧
          mux.exact.lookup path = none ∧ mux.exact.lookup (host ++ path) = none ∧
          (mux.exact.lookup (path ++ "/") ≠ none ∨
           mux.exact.lookup (host ++ path ++ "/") ≠ none))) ∧
    (∀ (mux : ServeMux) (r : GRequest),
       r.url.scheme = "gemini" →
       cleanPath r.url.path = r.url.path →
       mux.shouldRedirect (splitHostPort r.host).1 r.url.path = true →
       mux.Handler r =
         (some (RedirectHandler
             (r.url.path ++ "/" ++
               (if r.url.rawQuery ≠ "" then "?" ++ r.url.rawQuery else ""))
             StatusPermanentRedirect),
          r.url.path ++ "/")) := by
  refine ⟨shouldRedirect_iff, ?_⟩
  intro mux r hs hc hr
  have hhead : r.url.path.data.head? = some '/' := by
    rw [← hc]
    exact cleanPath_head_slash r.url.path
  obtain ⟨rest, hrest⟩ : ∃ rest, r.url.path.data = '/' :: rest := by
    cases hd : r.url.path.data with
    | nil => rw [hd] at hhead; cases hhead
    | cons c cs =>
      rw [hd] at hhead
      simp only [List.head?_cons, Option.some.injEq] at hhead
      exact ⟨cs, by rw [hhead]⟩
  have hhead2 : (r.url.path ++ "/").data.head? = some '/' := by
    simp [String.data_append, hrest]
  unfold ServeMux.Handler
  rw [if_neg (by simp [hs])]
  simp only [hc]
  rw [if_pos hr]
  rw [urlString_pathQuery (r.url.path ++ "/") r.url.rawQuery hhead2]

/-- The single-prefix mux of the C7 witness. -/
def muxC7 : ServeMux :=
  { exact := [("/foo/", MuxEntry.mk "/foo/" (GemHandler.user 0))]
    entries := [MuxEntry.mk "/foo/" (GemHandler.user 0)]
    hosts := false
    notFound := some GemHandler.notFoundFn }

/-- The request of the C7 witness: cleaned path `/foo`, with a query. -/
def reqC7 : GRequest :=
  { url := { scheme := "gemini", opaquePart := "", host := "example.com",
             path := "/foo", rawQuery := "q=1" }
    host := "example.com:1965" }

/-- C7 witness: the canonicalization theorem applied at a mux holding only
`/foo/` and a request for `/foo` with a query string. -/
theorem mux_canonicalization_redirect_witness :
    reqC7.url.scheme = "gemini" ∧
    cleanPath reqC7.url.path = reqC7.url.path ∧
    muxC7.shouldRedirect (splitHostPort reqC7.host).1 reqC7.url.path = true ∧
    muxC7.Handler reqC7 =
      (some (RedirectHandler
          (reqC7.url.path ++ "/" ++
            (if reqC7.url.rawQuery ≠ "" then "?" ++ reqC7.url.rawQuery else ""))
          StatusPermanentRedirect),
       reqC7.url.path ++ "/") :=
  ⟨rfl, by decide, by decide,
   mux_canonicalization_redirect.2 muxC7 reqC7 rfl (by decide) (by decide)⟩

end Gemproto
